import Mathlib

/-! # Optical Morse reader (`main/morse_reader.c`)

A shallow embedding of the decoder in `morse_reader.c`:

* `decodeMorse`, the first-match linear scan over the 36-entry table, with
  `strcmp` modelled on character arrays (a NUL or the end of the list
  terminates a string);
* the body of the polling loop of `app_main` from the edge test
  `if (ledOn != prevState)` on, as a function `step` on an explicit `State`
  (the four globals/statics `morseBuffer`, `morseIndex`, `prevState`,
  `lastTransitionTime`).  A step returns `none` when the C code would write
  outside the 16-element array, and otherwise the next state together with
  the trace of the calls to `decodeMorse` and of the log lines it wrote.

Machine integers: `morseIndex` (`int`) is an `Int`; its only arithmetic is
`morseIndex++` under the guard `morseIndex < 15`.  Timestamps are `int64_t`;
the subtraction `now - lastTransitionTime` is reduced to the signed 64-bit
range by `wrapInt64`.
-/

namespace MorseReader

/-! ## Constants -/

/-- The macro `#define THRESHOLD 32`. -/
def THRESHOLD : Int := 32

/-- The macro `#define DOT_DURATION_MS 20`. -/
def DOT_DURATION_MS : Int := 20

/-- The macro `#define MAX_MORSE_BUFFER 16`. -/
def MAX_MORSE_BUFFER : Nat := 16

/-! ## C strings and `strcmp` -/

/-- The string held by a character array: the characters before the first
NUL (or all of them when the list holds none). -/
def cstr (mem : List Char) : List Char :=
  mem.takeWhile (fun c => c.toNat != 0)

/-- The character read at the head of an array; reading at the end of the
list reads the terminator. -/
def peek : List Char → Int
  | [] => 0
  | c :: _ => (c.toNat : Int)

/-- The libc `strcmp`: walk both arrays while the left character is not NUL
and equals the right one, then return the difference of the two characters
reached. -/
def strcmp : List Char → List Char → Int
  | a :: as, b :: bs =>
      if a.toNat ≠ 0 ∧ a = b then strcmp as bs
      else (a.toNat : Int) - (b.toNat : Int)
  | a, b => peek a - peek b

/-! ## `decodeMorse` -/

/-- The local `table[]` of `decodeMorse`, in source order. -/
def table : List (List Char × Char) :=
  [ (".-".toList, 'A'), ("-...".toList, 'B'), ("-.-.".toList, 'C'),
    ("-..".toList, 'D'), (".".toList, 'E'),
    ("..-.".toList, 'F'), ("--.".toList, 'G'), ("....".toList, 'H'),
    ("..".toList, 'I'), (".---".toList, 'J'),
    ("-.-".toList, 'K'), (".-..".toList, 'L'), ("--".toList, 'M'),
    ("-.".toList, 'N'), ("---".toList, 'O'),
    (".--.".toList, 'P'), ("--.-".toList, 'Q'), (".-.".toList, 'R'),
    ("...".toList, 'S'), ("-".toList, 'T'),
    ("..-".toList, 'U'), ("...-".toList, 'V'), (".--".toList, 'W'),
    ("-..-".toList, 'X'), ("-.--".toList, 'Y'),
    ("--..".toList, 'Z'), ("-----".toList, '0'), (".----".toList, '1'),
    ("..---".toList, '2'),
    ("...--".toList, '3'), ("....-".toList, '4'), (".....".toList, '5'),
    ("-....".toList, '6'),
    ("--...".toList, '7'), ("---..".toList, '8'), ("----.".toList, '9') ]

/-- The `for` loop of `decodeMorse` over the entries not yet visited: return
the letter of the first entry whose `morse` compares equal, `'?'` when the
entries are exhausted. -/
def scan : List (List Char × Char) → List Char → Char
  | [], _ => '?'
  | (morse, letter) :: rest, code =>
      if strcmp code morse = 0 then letter else scan rest code

/-- The function `char decodeMorse(const char *code)`. -/
def decodeMorse (code : List Char) : Char :=
  scan table code

/-- The dot/dash sequences of the table. -/
def morseSequences : List (List Char) :=
  table.map Prod.fst

/-- The letters of the table. -/
def morseLetters : List Char :=
  table.map Prod.snd

/-- A character of `'A'..'Z'` or `'0'..'9'`. -/
def isAlnum (c : Char) : Prop :=
  (('A'.toNat ≤ c.toNat ∧ c.toNat ≤ 'Z'.toNat) ∨ ('0'.toNat ≤ c.toNat ∧ c.toNat ≤ '9'.toNat))

instance (c : Char) : Decidable (isAlnum c) := by
  unfold isAlnum; infer_instance

/-- A sequence of dots and dashes. -/
def isDotDash (s : List Char) : Prop :=
  ∀ c ∈ s, c = '.' ∨ c = '-'

instance (s : List Char) : Decidable (isDotDash s) := by
  unfold isDotDash; infer_instance

/-! ## The loop state and one iteration -/

/-- The globals `morseBuffer`, `morseIndex` and the function statics
`prevState`, `lastTransitionTime`. -/
structure State where
  morseBuffer : Mathlib.Vector Char MAX_MORSE_BUFFER
  morseIndex : Int
  prevState : Bool
  lastTransitionTime : Int
deriving DecidableEq

/-- What one iteration does besides updating the state, in program order. -/
inductive Action where
  /-- A call `decodeMorse(morseBuffer)`, with the array as it stood. -/
  | decodeCall (buffer : List Char)
  /-- The log line `ESP_LOGI(TAG, "Decoded: %c", decoded)`. -/
  | logDecoded (decoded : Char)
  /-- The log line `ESP_LOGI(TAG, "(space)")`. -/
  | logSpace
deriving DecidableEq, Repr

/-- The log lines of a trace (what the sink receives). -/
def emitted (tr : List Action) : List Action :=
  tr.filter (fun a => match a with
    | Action.decodeCall _ => false
    | _ => true)

/-- The arrays `decodeMorse` was called on in a trace. -/
def decodeCalls (tr : List Action) : List (List Char) :=
  tr.filterMap (fun a => match a with
    | Action.decodeCall b => some b
    | _ => none)

/-- Reduction of an integer to the `int64_t` range (two's complement). -/
def wrapInt64 (x : Int) : Int :=
  (x + 2 ^ 63) % 2 ^ 64 - 2 ^ 63

/-- The value is an `int64_t`. -/
def isInt64 (x : Int) : Prop :=
  -(2 ^ 63) ≤ x ∧ x < 2 ^ 63

instance (x : Int) : Decidable (isInt64 x) := by
  unfold isInt64; infer_instance

/-- The assignment `morseBuffer[i] = c`: defined only for an index inside
the array. -/
def store (buf : Mathlib.Vector Char MAX_MORSE_BUFFER) (i : Int) (c : Char) :
    Option (Mathlib.Vector Char MAX_MORSE_BUFFER) :=
  if h : 0 ≤ i ∧ i < (MAX_MORSE_BUFFER : Int) then
    some (buf.set ⟨i.toNat, by omega⟩ c)
  else none

/-- The block shared by the word-gap and the letter-gap branch:
when `morseIndex > 0`, terminate the buffer at `morseIndex`, call
`decodeMorse(morseBuffer)`, log the result and reset `morseIndex` to 0. -/
def flushLetter (s : State) : Option (State × List Action) :=
  if s.morseIndex > 0 then
    match store s.morseBuffer s.morseIndex (Char.ofNat 0) with
    | none => none
    | some buf =>
        let decoded := decodeMorse buf.toList
        some ({ s with morseBuffer := buf, morseIndex := 0 },
              [Action.decodeCall buf.toList, Action.logDecoded decoded])
  else some (s, [])

/-- The branch taken when `prevState` is true: the LED turned off, a symbol ended. -/
def fallingEdge (s : State) (duration_us : Int) : Option (State × List Action) :=
  if s.morseIndex < (MAX_MORSE_BUFFER : Int) - 1 then
    if duration_us < 2 * DOT_DURATION_MS * 1000 then
      match store s.morseBuffer s.morseIndex '.' with
      | none => none
      | some buf => some ({ s with morseBuffer := buf, morseIndex := s.morseIndex + 1 }, [])
    else
      match store s.morseBuffer s.morseIndex '-' with
      | none => none
      | some buf => some ({ s with morseBuffer := buf, morseIndex := s.morseIndex + 1 }, [])
  else some (s, [])

/-- The three branches of the `if / else if` chain on a rising edge. -/
inductive Gap where
  /-- The branch commented `// Word gap`. -/
  | word
  /-- The branch commented `// Letter gap`. -/
  | letter
  /-- Neither condition holds: no branch body runs. -/
  | intra
deriving DecidableEq, Repr

/-- The conditions of the chain
`if (duration_us >= 6 * DOT_DURATION_MS * 1000) ... else if (duration_us >= 2 * DOT_DURATION_MS * 1000) ...`,
in source order. -/
def gapBranch (duration_us : Int) : Gap :=
  if duration_us ≥ 6 * DOT_DURATION_MS * 1000 then Gap.word
  else if duration_us ≥ 2 * DOT_DURATION_MS * 1000 then Gap.letter
  else Gap.intra

/-- The branch taken when `prevState` is false: the LED turned on, a gap
ended.  The word-gap body is the flush block followed by the `(space)` log
line, the letter-gap body is the flush block alone. -/
def risingEdge (s : State) (duration_us : Int) : Option (State × List Action) :=
  match gapBranch duration_us with
  | Gap.word =>
      match flushLetter s with
      | none => none
      | some (s1, tr) => some (s1, tr ++ [Action.logSpace])
  | Gap.letter => flushLetter s
  | Gap.intra => some (s, [])

/-- One iteration of `while (1)` from `if (ledOn != prevState)` on, for the
sample `(ledOn, now)`. -/
def step (s : State) (ledOn : Bool) (now : Int) : Option (State × List Action) :=
  if ledOn != s.prevState then
    let duration_us := wrapInt64 (now - s.lastTransitionTime)
    let s1 := { s with lastTransitionTime := now }
    match (if s.prevState then fallingEdge s1 duration_us else risingEdge s1 duration_us) with
    | none => none
    | some (s2, tr) => some ({ s2 with prevState := ledOn }, tr)
  else some (s, [])

/-- The digitizer `bool ledOn = adc_raw > THRESHOLD;`. -/
def ledOnOf (adc_raw : Int) : Bool :=
  decide (adc_raw > THRESHOLD)

/-- The state at program start: zero-initialised globals, `prevState = false`,
`lastTransitionTime = 0`. -/
def init : State :=
  { morseBuffer := Mathlib.Vector.replicate MAX_MORSE_BUFFER (Char.ofNat 0)
    morseIndex := 0
    prevState := false
    lastTransitionTime := 0 }

/-- The loop over a finite list of samples `(ledOn, now)`, traces concatenated. -/
def run : State → List (Bool × Int) → Option (State × List Action)
  | s, [] => some (s, [])
  | s, (ledOn, now) :: rest =>
      match step s ledOn now with
      | none => none
      | some (s1, tr1) =>
          match run s1 rest with
          | none => none
          | some (s2, tr2) => some (s2, tr1 ++ tr2)

/-- States the loop can be in: the initial state and every state a defined
step leads to from one of them. -/
inductive Reachable : State → Prop where
  | init : Reachable init
  | step {s s1 : State} {tr : List Action} (ledOn : Bool) (now : Int) :
      Reachable s → step s ledOn now = some (s1, tr) → Reachable s1

/-- The symbols in the buffer: `morseBuffer[0..morseIndex)`. -/
def buffered (s : State) : List Char :=
  s.morseBuffer.toList.take s.morseIndex.toNat

/-- The invariant of the loop: the index stays inside `0..15` and the
buffered symbols are dots and dashes. -/
def Inv (s : State) : Prop :=
  0 ≤ s.morseIndex ∧ s.morseIndex ≤ 15 ∧ isDotDash (buffered s)

instance (s : State) : Decidable (Inv s) := by
  unfold Inv; infer_instance

/-- The log line a rising edge adds after the flush block: `(space)` on a
word gap (`duration_us >= 120000`), nothing on a letter gap. -/
def spaceIf (duration_us : Int) : List Action :=
  if 120000 ≤ duration_us then [Action.logSpace] else []

/-- The marks a list of samples holds for a reader whose recorded signal
state is `prev` and whose last transition was at `last`: the symbols of the
successive falling edges (`'.'` for a mark shorter than 40000 microseconds,
`'-'` otherwise), provided every rising edge among the samples ends a gap
shorter than 40000 microseconds; `none` when a rising edge ends a letter or
word gap.  Samples that repeat the recorded state are skipped. -/
def marks (prev : Bool) (last : Int) : List (Bool × Int) → Option (List Char)
  | [] => some []
  | (ledOn, now) :: rest =>
      if ledOn = prev then marks prev last rest
      else if prev then
        (marks ledOn now rest).map
          (fun syms => (if wrapInt64 (now - last) < 40000 then '.' else '-') :: syms)
      else if wrapInt64 (now - last) < 40000 then marks ledOn now rest
      else none

/-- Sixteen marks of 10 ms separated by gaps of 10 ms, the first rising edge
at 10 ms: 32 alternating samples. -/
def sixteenMarks : List (Bool × Int) :=
  (List.range 32).map (fun i => (i % 2 == 0, 10000 * ((i : Int) + 1)))

/-- A buffer holding the given symbols from index 0 on, NUL elsewhere. -/
def bufferOf (syms : List Char) : Mathlib.Vector Char MAX_MORSE_BUFFER :=
  ⟨(syms ++ List.replicate MAX_MORSE_BUFFER (Char.ofNat 0)).take MAX_MORSE_BUFFER, by simp⟩

/-- The state of a reader that has buffered the given symbols, with the
signal inactive since `last`. -/
def holding (syms : List Char) (last : Int) : State :=
  { morseBuffer := bufferOf syms
    morseIndex := syms.length
    prevState := false
    lastTransitionTime := last }

/-- The edge detector on its own: the recorded signal state and the
timestamp of the last transition after the samples, for a reader that
recorded `prev` and `last` before them.  A sample is a transition when its
signal state differs from the recorded one (the test `ledOn != prevState`). -/
def edges (prev : Bool) (last : Int) : List (Bool × Int) → Bool × Int
  | [] => (prev, last)
  | (ledOn, now) :: rest =>
      if ledOn != prev then edges ledOn now rest else edges prev last rest

/-- The transitions the loop processes over a list of samples: the samples
for which the test `ledOn != prevState` of the step holds in the state the
loop is in when the sample arrives, in order (`none` when a step is
undefined). -/
def processed : State → List (Bool × Int) → Option (List (Bool × Int))
  | _, [] => some []
  | s, (ledOn, now) :: rest =>
      match step s ledOn now with
      | none => none
      | some (s1, _) =>
          (processed s1 rest).map
            (fun l => if ledOn != s.prevState then (ledOn, now) :: l else l)

/-- The symbol buffer as the specification describes it, a plain list
`acc` of symbols: a falling edge appends its symbol (`'.'` below 40000
microseconds, `'-'` otherwise) unless 15 symbols are held, a rising edge
after 40000 microseconds or more (a flush) empties the list, a shorter gap
and a sample that repeats the recorded state leave it alone.  The result is
the list after the samples: the symbols appended since the last flush, in
the order of their falling edges. -/
def pendingSymbols (prev : Bool) (last : Int) (acc : List Char) :
    List (Bool × Int) → List Char
  | [] => acc
  | (ledOn, now) :: rest =>
      if ledOn = prev then pendingSymbols prev last acc rest
      else if prev then
        pendingSymbols ledOn now
          (if acc.length < 15 then
            acc ++ [if wrapInt64 (now - last) < 40000 then '.' else '-']
           else acc) rest
      else
        pendingSymbols ledOn now
          (if 40000 ≤ wrapInt64 (now - last) then [] else acc) rest

/-- The edges of the letter A after its first rising edge at 10 ms: the
falling edge of a 15 ms mark, a rising edge after a 15 ms gap, and the
falling edge of a 60 ms mark. -/
def letterARest : List (Bool × Int) :=
  [(false, 25000), (true, 40000), (false, 100000)]

/-- The edges of the letter A after a first rising edge at 200 ms: the
falling edge of a 15 ms mark, a rising edge after a 15 ms gap, and the
falling edge of a 60 ms mark. -/
def letterALate : List (Bool × Int) :=
  [(false, 215000), (true, 230000), (false, 290000)]

/-! ## Lemmas on `strcmp` and the scan -/

theorem char_eq_of_toNat_eq {a b : Char} (h : a.toNat = b.toNat) : a = b := by
  rw [← Char.ofNat_toNat a, ← Char.ofNat_toNat b, h]

theorem cstr_nil : cstr [] = [] := rfl

theorem cstr_cons_zero {a : Char} (as : List Char) (h : a.toNat = 0) : cstr (a :: as) = [] := by
  simp [cstr, List.takeWhile_cons, h]

theorem cstr_cons_ne {a : Char} (as : List Char) (h : a.toNat ≠ 0) :
    cstr (a :: as) = a :: cstr as := by
  have hb : (a.toNat != 0) = true := by simpa using h
  simp [cstr, List.takeWhile_cons, hb]

/-- Two arrays compare equal exactly when they hold the same string. -/
theorem strcmp_eq_zero_iff (a b : List Char) : strcmp a b = 0 ↔ cstr a = cstr b := by
  induction a generalizing b with
  | nil =>
    cases b with
    | nil => simp [strcmp, peek]
    | cons y bs =>
      by_cases hy : y.toNat = 0
      · simp [strcmp, peek, hy, cstr_nil, cstr_cons_zero]
      · simp [strcmp, peek, hy, cstr_nil, cstr_cons_ne]
  | cons x as ih =>
    cases b with
    | nil =>
      by_cases hx : x.toNat = 0
      · simp [strcmp, peek, hx, cstr_nil, cstr_cons_zero]
      · simp [strcmp, peek, hx, cstr_nil, cstr_cons_ne]
    | cons y bs =>
      by_cases hx : x.toNat = 0
      · by_cases hy : y.toNat = 0
        · simp [strcmp, hx, hy, cstr_cons_zero]
        · have : ¬ ((0 : Int) - (y.toNat : Int) = 0) := by omega
          simp [strcmp, hx, hy, cstr_cons_zero, cstr_cons_ne, this]
      · by_cases hxy : x = y
        · subst hxy
          simp [strcmp, hx, cstr_cons_ne, ih]
        · have hne : x.toNat ≠ y.toNat := fun h => hxy (char_eq_of_toNat_eq h)
          have : ¬ ((x.toNat : Int) - (y.toNat : Int) = 0) := by omega
          by_cases hy : y.toNat = 0
          · simp [strcmp, hxy, cstr_cons_zero, cstr_cons_ne, hx, hy, this]
          · simp [strcmp, hxy, cstr_cons_ne, hx, hy, this]

/-- The scan returns `'?'` or the letter of an entry that compares equal. -/
theorem scan_cases (t : List (List Char × Char)) (code : List Char) :
    (scan t code = '?' ∧ ∀ p ∈ t, strcmp code p.1 ≠ 0) ∨
      ∃ p ∈ t, strcmp code p.1 = 0 ∧ scan t code = p.2 := by
  induction t with
  | nil => left; simp [scan]
  | cons p rest ih =>
    obtain ⟨m, l⟩ := p
    by_cases h : strcmp code m = 0
    · right; exact ⟨(m, l), by simp, h, by simp [scan, h]⟩
    · rcases ih with ⟨h1, h2⟩ | ⟨q, hq, h1, h2⟩
      · left; refine ⟨by simp [scan, h, h1], ?_⟩
        intro q hq
        rcases List.mem_cons.1 hq with rfl | hq
        · exact h
        · exact h2 q hq
      · right; exact ⟨q, List.mem_cons_of_mem _ hq, h1, by simp [scan, h, h2]⟩

theorem scan_congr (t : List (List Char × Char)) {a b : List Char} (h : cstr a = cstr b) :
    scan t a = scan t b := by
  induction t with
  | nil => rfl
  | cons p rest ih =>
    obtain ⟨m, l⟩ := p
    have : (strcmp a m = 0) ↔ (strcmp b m = 0) := by
      rw [strcmp_eq_zero_iff, strcmp_eq_zero_iff, h]
    by_cases hb : strcmp b m = 0
    · simp [scan, hb, this.2 hb]
    · have ha : ¬ strcmp a m = 0 := fun ha => hb (this.1 ha)
      simp [scan, ha, hb, ih]

theorem cstr_idem (a : List Char) : cstr (cstr a) = cstr a := by
  induction a with
  | nil => rfl
  | cons x as ih =>
    by_cases hx : x.toNat = 0
    · simp [cstr_cons_zero, hx, cstr_nil]
    · simp [cstr_cons_ne, hx, ih]

/-- The function `decodeMorse` only reads the string held by its argument. -/
theorem decodeMorse_cstr (code : List Char) : decodeMorse (cstr code) = decodeMorse code :=
  scan_congr table (cstr_idem code)

theorem table_cstr : ∀ p ∈ table, cstr p.1 = p.1 := by decide

theorem table_roundtrip : ∀ p ∈ table, decodeMorse p.1 = p.2 := by decide

theorem table_letters_inj : ∀ p ∈ table, ∀ q ∈ table, p.2 = q.2 → p.1 = q.1 := by decide

theorem table_letters_ne_unknown : ∀ p ∈ table, p.2 ≠ '?' := by decide

theorem table_dotDash : ∀ p ∈ table, isDotDash p.1 := by decide

theorem table_letters_alnum : ∀ c ∈ morseLetters, isAlnum c := by decide

theorem cstr_eq_self {s : List Char} (h : ∀ c ∈ s, c.toNat ≠ 0) : cstr s = s := by
  induction s with
  | nil => rfl
  | cons x xs ih =>
    rw [cstr_cons_ne xs (h x (by simp)), ih (fun c hc => h c (List.mem_cons_of_mem _ hc))]

theorem cstr_of_isDotDash {s : List Char} (h : isDotDash s) : cstr s = s := by
  apply cstr_eq_self
  intro c hc
  rcases h c hc with rfl | rfl <;> decide

/-- A result other than `'?'` is the letter of the table entry whose sequence
is the string held by the argument. -/
theorem decodeMorse_known {code : List Char} (h : decodeMorse code ≠ '?') :
    (cstr code, decodeMorse code) ∈ table := by
  rcases scan_cases table code with ⟨h1, _⟩ | ⟨p, hp, h1, h2⟩
  · exact absurd h1 h
  · have hc : cstr code = p.1 := by
      rw [← table_cstr p hp]; exact (strcmp_eq_zero_iff _ _).1 h1
    have : decodeMorse code = p.2 := h2
    rw [hc, this]; exact hp

theorem decodeMorse_not_in_table {code : List Char} (h : cstr code ∉ morseSequences) :
    decodeMorse code = '?' := by
  by_contra hne
  exact h (List.mem_map.2 ⟨_, decodeMorse_known hne, rfl⟩)

theorem alnum_mem_letters {c : Char} (h : isAlnum c) : c ∈ morseLetters := by
  have hc : c = Char.ofNat c.toNat := (Char.ofNat_toNat c).symm
  have hA : 'A'.toNat = 65 := by decide
  have hZ : 'Z'.toNat = 90 := by decide
  have h0 : '0'.toNat = 48 := by decide
  have h9 : '9'.toNat = 57 := by decide
  unfold isAlnum at h
  rw [hA, hZ, h0, h9] at h
  obtain ⟨n, hn⟩ : ∃ n, n = c.toNat := ⟨_, rfl⟩
  rw [hc, ← hn]
  rw [← hn] at h
  rcases h with ⟨h1, h2⟩ | ⟨h1, h2⟩
  · interval_cases n <;> decide
  · interval_cases n <;> decide

/-- C1: every one of the 36 (sequence, letter) pairs of the table of
`decodeMorse` decodes to its own letter: the first-match linear scan returns
exactly the letter paired with the sequence. -/
theorem decodeMorse_table_roundtrip (p : List Char × Char) (hp : p ∈ table) :
    table.length = 36 ∧ decodeMorse p.1 = p.2 :=
  ⟨by decide, table_roundtrip p hp⟩

theorem decodeMorse_table_roundtrip_witness :
    (".-".toList, 'A') ∈ table ∧ table.length = 36 ∧ decodeMorse ".-".toList = 'A' :=
  ⟨by decide, decodeMorse_table_roundtrip (".-".toList, 'A') (by decide)⟩

/-- C2: when the string held by `code` is not one of the 36 table sequences
(the empty string included), `decodeMorse code` is `'?'`.  The function is
total, so every input has a defined character as its result. -/
theorem decodeMorse_unknown (code : List Char) (h : cstr code ∉ morseSequences) :
    decodeMorse code = '?' :=
  decodeMorse_not_in_table h

theorem decodeMorse_unknown_witness :
    (cstr [] ∉ morseSequences ∧ decodeMorse [] = '?') ∧
      (cstr "--..--".toList ∉ morseSequences ∧ decodeMorse "--..--".toList = '?') :=
  ⟨⟨by decide, decodeMorse_unknown [] (by decide)⟩,
   ⟨by decide, decodeMorse_unknown "--..--".toList (by decide)⟩⟩

/-- C3: the table is a one-to-one mapping covering exactly `A`-`Z` and
`0`-`9`: its letters are these 36 characters, each of them is the result of
`decodeMorse` on exactly one dot/dash sequence, every result of `decodeMorse`
is `'?'` or one of them, and two arguments with the same result other than
`'?'` hold the same string. -/
theorem decodeMorse_one_to_one :
    morseLetters = "ABCDEFGHIJKLMNOPQRSTUVWXYZ0123456789".toList ∧
    (∀ c, isAlnum c → ∃! s, isDotDash s ∧ decodeMorse s = c) ∧
    (∀ code, decodeMorse code = '?' ∨ isAlnum (decodeMorse code)) ∧
    (∀ s1 s2, decodeMorse s1 ≠ '?' → decodeMorse s1 = decodeMorse s2 → cstr s1 = cstr s2) := by
  refine ⟨by decide, ?_, ?_, ?_⟩
  · intro c hc
    obtain ⟨p, hp, rfl⟩ := List.mem_map.1 (alnum_mem_letters hc)
    refine ⟨p.1, ⟨table_dotDash p hp, table_roundtrip p hp⟩, ?_⟩
    rintro s ⟨hs, hdec⟩
    have hne : decodeMorse s ≠ '?' := by rw [hdec]; exact table_letters_ne_unknown p hp
    have hmem := decodeMorse_known hne
    have := table_letters_inj _ hmem p hp hdec
    rw [← cstr_of_isDotDash hs]; exact this
  · intro code
    by_cases h : decodeMorse code = '?'
    · exact Or.inl h
    · exact Or.inr (table_letters_alnum _ (List.mem_map.2 ⟨_, decodeMorse_known h, rfl⟩))
  · intro s1 s2 hne heq
    have h1 := decodeMorse_known hne
    have h2 := @decodeMorse_known s2 (by rw [← heq]; exact hne)
    exact table_letters_inj _ h1 _ h2 heq

theorem decodeMorse_one_to_one_witness :
    ∃! s, isDotDash s ∧ decodeMorse s = 'A' :=
  decodeMorse_one_to_one.2.1 'A' (by decide)

/-! ## Lemmas on one iteration -/

theorem wrapInt64_of_isInt64 {x : Int} (h : isInt64 x) : wrapInt64 x = x := by
  unfold isInt64 at h
  unfold wrapInt64
  norm_num at h ⊢
  omega

theorem store_inBounds (buf : Mathlib.Vector Char MAX_MORSE_BUFFER) {i : Int} (c : Char)
    (h0 : 0 ≤ i) (h1 : i < 16) :
    ∃ b, store buf i c = some b ∧ b.toList = buf.toList.set i.toNat c := by
  have h : 0 ≤ i ∧ i < (MAX_MORSE_BUFFER : Int) := ⟨h0, by simpa [MAX_MORSE_BUFFER] using h1⟩
  refine ⟨buf.set ⟨i.toNat, by simp only [MAX_MORSE_BUFFER]; omega⟩ c, ?_, ?_⟩
  · simp [store, h]
  · simp [Mathlib.Vector.toList_set]

theorem store_outOfBounds (buf : Mathlib.Vector Char MAX_MORSE_BUFFER) {i : Int} (c : Char)
    (h : i < 0 ∨ 16 ≤ i) : store buf i c = none := by
  have : ¬ (0 ≤ i ∧ i < (MAX_MORSE_BUFFER : Int)) := by
    simp only [MAX_MORSE_BUFFER]; omega
  simp [store, this]

theorem buffer_length (s : State) : s.morseBuffer.toList.length = 16 := by
  simp [MAX_MORSE_BUFFER]

theorem fallingEdge_append (s : State) (d : Int) (h0 : 0 ≤ s.morseIndex)
    (h1 : s.morseIndex < 15) :
    ∃ b, fallingEdge s d =
        some ({ s with morseBuffer := b, morseIndex := s.morseIndex + 1 }, []) ∧
      b.toList = s.morseBuffer.toList.set s.morseIndex.toNat (if d < 40000 then '.' else '-') := by
  have hlt : s.morseIndex < (MAX_MORSE_BUFFER : Int) - 1 := by
    simp only [MAX_MORSE_BUFFER]; omega
  by_cases hd : d < 40000
  · obtain ⟨b, hb, hl⟩ := store_inBounds s.morseBuffer '.' h0 (by omega : s.morseIndex < 16)
    refine ⟨b, ?_, by simp [hl, hd]⟩
    have hd2 : d < 2 * DOT_DURATION_MS * 1000 := by simp only [DOT_DURATION_MS]; omega
    simp [fallingEdge, hlt, hd2, hb]
  · obtain ⟨b, hb, hl⟩ := store_inBounds s.morseBuffer '-' h0 (by omega : s.morseIndex < 16)
    refine ⟨b, ?_, by simp [hl, hd]⟩
    have hd2 : ¬ d < 2 * DOT_DURATION_MS * 1000 := by simp only [DOT_DURATION_MS]; omega
    simp [fallingEdge, hlt, hd2, hb]

theorem take_set_append {l : List Char} {n : Nat} (c : Char) (h : n < l.length) :
    (l.set n c).take (n + 1) = l.take n ++ [c] := by
  induction l generalizing n with
  | nil => simp at h
  | cons x xs ih =>
    cases n with
    | zero => simp
    | succ m =>
      simp only [List.length_cons, Nat.add_lt_add_iff_right] at h
      simp [List.set, List.take, ih h]

theorem buffered_append {s s1 : State} (c : Char) (h0 : 0 ≤ s.morseIndex)
    (h1 : s.morseIndex < 16) (hidx : s1.morseIndex = s.morseIndex + 1)
    (hbuf : s1.morseBuffer.toList = s.morseBuffer.toList.set s.morseIndex.toNat c) :
    buffered s1 = buffered s ++ [c] := by
  unfold buffered
  have hn : (s.morseIndex + 1).toNat = s.morseIndex.toNat + 1 := by omega
  rw [hidx, hbuf, hn]
  exact take_set_append c (by rw [buffer_length]; omega)

theorem gapBranch_word_iff (d : Int) : gapBranch d = Gap.word ↔ 120000 ≤ d := by
  unfold gapBranch
  simp only [DOT_DURATION_MS]
  split_ifs with h1 h2 <;> simp <;> omega

theorem gapBranch_letter_iff (d : Int) : gapBranch d = Gap.letter ↔ 40000 ≤ d ∧ d < 120000 := by
  unfold gapBranch
  simp only [DOT_DURATION_MS]
  split_ifs with h1 h2 <;> simp <;> omega

theorem gapBranch_intra_iff (d : Int) : gapBranch d = Gap.intra ↔ d < 40000 := by
  unfold gapBranch
  simp only [DOT_DURATION_MS]
  split_ifs with h1 h2 <;> simp <;> omega

/-- A falling edge on a buffer that is not full appends one symbol. -/
theorem step_falling_append (s : State) (now : Int)
    (hprev : s.prevState = true) (h0 : 0 ≤ s.morseIndex) (h15 : s.morseIndex < 15)
    (hsub : isInt64 (now - s.lastTransitionTime)) :
    ∃ s1, step s false now = some (s1, []) ∧
      s1.morseIndex = s.morseIndex + 1 ∧
      buffered s1 = buffered s ++ [if now - s.lastTransitionTime < 40000 then '.' else '-'] ∧
      s1.morseBuffer.toList = s.morseBuffer.toList.set s.morseIndex.toNat
        (if now - s.lastTransitionTime < 40000 then '.' else '-') ∧
      s1.prevState = false ∧ s1.lastTransitionTime = now := by
  obtain ⟨b, hb, hl⟩ :=
    fallingEdge_append { s with lastTransitionTime := now } (now - s.lastTransitionTime) h0 h15
  refine ⟨{ s with morseBuffer := b, morseIndex := s.morseIndex + 1,
                   lastTransitionTime := now, prevState := false }, ?_, rfl, ?_, hl, rfl, rfl⟩
  · simp only [hprev] at hb
    simp [step, hprev, wrapInt64_of_isInt64 hsub, hb]
  · exact buffered_append _ h0 (by omega) rfl hl

/-- C4: on a falling edge (`ledOn = false` while `prevState = true`) with the
buffer not full (`morseIndex < 15`) the step appends exactly one symbol at
the end of the buffer, `'.'` when `now - lastTransitionTime < 40000` and
`'-'` otherwise (so `'-'` at exactly 40000 and for every longer mark);
`morseIndex` grows by one, the earlier symbols and the rest of the array are
unchanged, and nothing is logged.  40000 is `2 * DOT_DURATION_MS * 1000`. -/
theorem step_falling_edge (s : State) (now : Int)
    (hprev : s.prevState = true) (h0 : 0 ≤ s.morseIndex) (h15 : s.morseIndex < 15)
    (hsub : isInt64 (now - s.lastTransitionTime)) :
    2 * DOT_DURATION_MS * 1000 = 40000 ∧
    ∃ s1, step s false now = some (s1, []) ∧
      s1.morseIndex = s.morseIndex + 1 ∧
      buffered s1 = buffered s ++ [if now - s.lastTransitionTime < 40000 then '.' else '-'] ∧
      s1.morseBuffer.toList = s.morseBuffer.toList.set s.morseIndex.toNat
        (if now - s.lastTransitionTime < 40000 then '.' else '-') ∧
      s1.prevState = false ∧ s1.lastTransitionTime = now :=
  ⟨by decide, step_falling_append s now hprev h0 h15 hsub⟩

theorem step_falling_edge_witness :
    ∃ s1, step { init with prevState := true, lastTransitionTime := 1000 } false 41000
        = some (s1, []) ∧ buffered s1 = ['-'] ∧ s1.morseIndex = 1 := by
  obtain ⟨_, s1, h1, h2, h3, _⟩ :=
    step_falling_edge { init with prevState := true, lastTransitionTime := 1000 } 41000
      rfl (by decide) (by decide) (by decide)
  exact ⟨s1, h1, by rw [h3]; decide, by rw [h2]; decide⟩

/-- C5: on a rising edge (`ledOn = true` while `prevState = false`), with
`elapsed = now - lastTransitionTime`, the step takes the word-gap branch
exactly when `elapsed >= 120000`, the letter-gap branch exactly when
`40000 <= elapsed < 120000`, and no branch otherwise; the word-gap branch
runs the flush block and logs `(space)`, the letter-gap branch runs the flush
block, and for `elapsed < 40000` nothing is logged and `morseBuffer` and
`morseIndex` are unchanged. -/
theorem step_rising_edge (s : State) (now : Int)
    (hprev : s.prevState = false) (hsub : isInt64 (now - s.lastTransitionTime)) :
    (6 * DOT_DURATION_MS * 1000 = 120000 ∧ 2 * DOT_DURATION_MS * 1000 = 40000) ∧
    (gapBranch (now - s.lastTransitionTime) = Gap.word ↔ 120000 ≤ now - s.lastTransitionTime) ∧
    (gapBranch (now - s.lastTransitionTime) = Gap.letter ↔
      40000 ≤ now - s.lastTransitionTime ∧ now - s.lastTransitionTime < 120000) ∧
    (gapBranch (now - s.lastTransitionTime) = Gap.intra ↔ now - s.lastTransitionTime < 40000) ∧
    step s true now =
      (match gapBranch (now - s.lastTransitionTime) with
        | Gap.word =>
            (flushLetter { s with lastTransitionTime := now }).map
              (fun p => ({ p.1 with prevState := true }, p.2 ++ [Action.logSpace]))
        | Gap.letter =>
            (flushLetter { s with lastTransitionTime := now }).map
              (fun p => ({ p.1 with prevState := true }, p.2))
        | Gap.intra => some ({ s with lastTransitionTime := now, prevState := true }, [])) ∧
    (now - s.lastTransitionTime < 40000 →
      step s true now = some ({ s with lastTransitionTime := now, prevState := true }, [])) := by
  have hstep : step s true now =
      (match gapBranch (now - s.lastTransitionTime) with
        | Gap.word =>
            (flushLetter { s with lastTransitionTime := now }).map
              (fun p => ({ p.1 with prevState := true }, p.2 ++ [Action.logSpace]))
        | Gap.letter =>
            (flushLetter { s with lastTransitionTime := now }).map
              (fun p => ({ p.1 with prevState := true }, p.2))
        | Gap.intra => some ({ s with lastTransitionTime := now, prevState := true }, [])) := by
    obtain ⟨buf, idx, prev, last⟩ := s
    simp only at hprev hsub
    subst hprev
    simp only [step, wrapInt64_of_isInt64 hsub, risingEdge]
    cases gapBranch (now - last) with
    | word =>
      cases hf : flushLetter ⟨buf, idx, false, now⟩ with
      | none => simp [hf]
      | some p => simp [hf]
    | letter =>
      cases hf : flushLetter ⟨buf, idx, false, now⟩ with
      | none => simp [hf]
      | some p => simp [hf]
    | intra => simp
  refine ⟨⟨by decide, by decide⟩, gapBranch_word_iff _, gapBranch_letter_iff _,
    gapBranch_intra_iff _, hstep, ?_⟩
  intro hlt
  rw [hstep, (gapBranch_intra_iff _).2 hlt]

theorem step_rising_edge_witness :
    gapBranch (40000 - init.lastTransitionTime) = Gap.letter ∧
    gapBranch (120000 - init.lastTransitionTime) = Gap.word ∧
    step init true 39999 = some ({ init with lastTransitionTime := 39999, prevState := true }, []) :=
  ⟨(step_rising_edge init 40000 rfl (by decide)).2.2.1.2 ⟨by decide, by decide⟩,
   (step_rising_edge init 120000 rfl (by decide)).2.1.2 (by decide),
   (step_rising_edge init 39999 rfl (by decide)).2.2.2.2.2 (by decide)⟩

/-! ## The flush block and the invariant -/

theorem cstr_set_nul {l : List Char} {n : Nat} (h : n < l.length) :
    cstr (l.set n (Char.ofNat 0)) = cstr (l.take n) := by
  induction l generalizing n with
  | nil => simp at h
  | cons x xs ih =>
    cases n with
    | zero =>
      have : (Char.ofNat 0).toNat = 0 := by decide
      simp [List.set, cstr_cons_zero _ this, cstr_nil]
    | succ m =>
      simp only [List.length_cons, Nat.add_lt_add_iff_right] at h
      by_cases hx : x.toNat = 0
      · simp [List.set, List.take, cstr_cons_zero _ hx]
      · simp [List.set, List.take, cstr_cons_ne _ hx, ih h]

theorem fallingEdge_full (s : State) (d : Int) (h : 15 ≤ s.morseIndex) :
    fallingEdge s d = some (s, []) := by
  have : ¬ s.morseIndex < (MAX_MORSE_BUFFER : Int) - 1 := by
    simp only [MAX_MORSE_BUFFER]; omega
  simp [fallingEdge, this]

theorem flushLetter_empty (s : State) (h : s.morseIndex ≤ 0) : flushLetter s = some (s, []) := by
  have : ¬ s.morseIndex > 0 := by omega
  simp [flushLetter, this]

theorem flushLetter_nonempty (s : State) (h0 : 0 < s.morseIndex) (h1 : s.morseIndex ≤ 15) :
    ∃ b, flushLetter s =
        some ({ s with morseBuffer := b, morseIndex := 0 },
              [Action.decodeCall b.toList, Action.logDecoded (decodeMorse (buffered s))]) ∧
      b.toList = s.morseBuffer.toList.set s.morseIndex.toNat (Char.ofNat 0) ∧
      cstr b.toList = cstr (buffered s) := by
  obtain ⟨b, hb, hl⟩ := store_inBounds s.morseBuffer (Char.ofNat 0) (le_of_lt h0)
    (by omega : s.morseIndex < 16)
  have hc : cstr b.toList = cstr (buffered s) := by
    rw [hl]; exact cstr_set_nul (by rw [buffer_length]; omega)
  refine ⟨b, ?_, hl, hc⟩
  have hgt : s.morseIndex > 0 := h0
  have hdec : decodeMorse b.toList = decodeMorse (buffered s) := scan_congr table hc
  simp [flushLetter, hgt, hb, hdec]

theorem buffered_of_index_zero (s : State) (h : s.morseIndex = 0) : buffered s = [] := by
  simp [buffered, h]

theorem inv_init : Inv init := by decide

/-- Every step from a state satisfying the invariant is defined and leads to
a state satisfying it. -/
theorem step_inv (s : State) (ledOn : Bool) (now : Int) (h : Inv s) :
    ∃ s1 tr, step s ledOn now = some (s1, tr) ∧ Inv s1 := by
  obtain ⟨h0, h15, hdd⟩ := h
  obtain ⟨buf, idx, prev, last⟩ := s
  simp only at h0 h15
  by_cases hedge : ledOn = prev
  · subst hedge
    exact ⟨_, [], by simp [step], h0, h15, hdd⟩
  · cases prev with
    | true =>
      have hl : ledOn = false := by cases ledOn <;> simp_all
      subst hl
      by_cases hfull : idx < 15
      · obtain ⟨b, hb, hbl⟩ := fallingEdge_append ⟨buf, idx, true, now⟩ (wrapInt64 (now - last))
          h0 hfull
        refine ⟨⟨b, idx + 1, false, now⟩, [], by simp [step, hb], ?_, ?_, ?_⟩
        · show 0 ≤ idx + 1
          omega
        · show idx + 1 ≤ 15
          omega
        · have := @buffered_append ⟨buf, idx, true, last⟩ ⟨b, idx + 1, false, now⟩
            _ h0 (by show idx < 16; omega) rfl hbl
          rw [this]
          intro c hc
          rcases List.mem_append.1 hc with hc | hc
          · exact hdd c hc
          · simp only [List.mem_singleton] at hc
            subst hc
            split_ifs <;> simp
      · have hb := fallingEdge_full ⟨buf, idx, true, now⟩ (wrapInt64 (now - last))
          (by show 15 ≤ idx; omega)
        exact ⟨⟨buf, idx, false, now⟩, [], by simp [step, hb], h0, h15, hdd⟩
    | false =>
      have hl : ledOn = true := by cases ledOn <;> simp_all
      subst hl
      have hflush : ∃ s1 tr, flushLetter ⟨buf, idx, false, now⟩ = some (s1, tr) ∧
          Inv { s1 with prevState := true } := by
        by_cases hz : idx ≤ 0
        · exact ⟨⟨buf, idx, false, now⟩, [], flushLetter_empty _ hz, h0, h15, hdd⟩
        · obtain ⟨b, hb, _, _⟩ := flushLetter_nonempty ⟨buf, idx, false, now⟩
            (by show 0 < idx; omega) h15
          refine ⟨⟨b, 0, false, now⟩, _, hb, ?_, ?_, ?_⟩
          · show (0 : Int) ≤ 0
            omega
          · show (0 : Int) ≤ 15
            omega
          · show isDotDash (buffered ⟨b, 0, true, now⟩)
            rw [buffered_of_index_zero _ rfl]
            intro c hc
            simp at hc
      obtain ⟨s1, tr, hf, hinv⟩ := hflush
      simp only [step, risingEdge]
      cases gapBranch (wrapInt64 (now - last)) with
      | word => exact ⟨{ s1 with prevState := true }, tr ++ [Action.logSpace], by simp [hf], hinv⟩
      | letter => exact ⟨{ s1 with prevState := true }, tr, by simp [hf], hinv⟩
      | intra => exact ⟨⟨buf, idx, true, now⟩, [], by simp, h0, h15, hdd⟩

theorem reachable_inv {s : State} (h : Reachable s) : Inv s := by
  induction h with
  | init => exact inv_init
  | step ledOn now _ hstep ih =>
    obtain ⟨s2, tr2, h2, hinv⟩ := step_inv _ ledOn now ih
    rw [h2] at hstep
    simp only [Option.some.injEq, Prod.mk.injEq] at hstep
    rw [← hstep.1]; exact hinv

/-- A run from a reachable state is defined and ends in a reachable state. -/
theorem run_reachable (samples : List (Bool × Int)) :
    ∀ s, Reachable s → ∃ s1 tr, run s samples = some (s1, tr) ∧ Reachable s1 := by
  induction samples with
  | nil => intro s hs; exact ⟨s, [], rfl, hs⟩
  | cons x rest ih =>
    intro s hs
    obtain ⟨ledOn, now⟩ := x
    obtain ⟨s1, tr1, h1, _⟩ := step_inv s ledOn now (reachable_inv hs)
    obtain ⟨s2, tr2, h2, hr2⟩ := ih s1 (Reachable.step ledOn now hs h1)
    exact ⟨s2, tr1 ++ tr2, by simp [run, h1, h2], hr2⟩

theorem store_isSome_iff (buf : Mathlib.Vector Char MAX_MORSE_BUFFER) (i : Int) (c : Char) :
    (store buf i c).isSome = true ↔ 0 ≤ i ∧ i ≤ 15 := by
  by_cases h : 0 ≤ i ∧ i < 16
  · obtain ⟨b, hb, _⟩ := store_inBounds buf c h.1 h.2
    simp only [hb, Option.isSome_some, true_iff]
    omega
  · rw [store_outOfBounds buf c (by omega)]
    simp only [Option.isSome_none, Bool.false_eq_true, false_iff]
    omega

/-- C6: in every state reachable from the initial state by any sequence of
samples, `0 <= morseIndex <= 15 = MAX_MORSE_BUFFER - 1`.  A write
`morseBuffer[i] = c` is defined exactly for an index in `0..15`, and every
step from a reachable state is defined: each write
`morseBuffer[morseIndex++] = symbol` and each terminator write
`morseBuffer[morseIndex] = 0` it performs lands inside the 16-element array.
The loop over any list of samples from the initial state is therefore
defined and ends in a state within the bounds. -/
theorem morseIndex_bounded :
    (MAX_MORSE_BUFFER : Int) - 1 = 15 ∧
    (∀ buf i c, (store buf i c).isSome = true ↔ 0 ≤ i ∧ i ≤ 15) ∧
    (∀ s, Reachable s →
      0 ≤ s.morseIndex ∧ s.morseIndex ≤ 15 ∧
      ∀ ledOn now, ∃ s1 tr, step s ledOn now = some (s1, tr)) ∧
    (∀ samples, ∃ s tr, run init samples = some (s, tr) ∧
      0 ≤ s.morseIndex ∧ s.morseIndex ≤ 15) := by
  refine ⟨by decide, store_isSome_iff, ?_, ?_⟩
  · intro s hs
    have hinv := reachable_inv hs
    refine ⟨hinv.1, hinv.2.1, ?_⟩
    intro ledOn now
    obtain ⟨s1, tr, h1, _⟩ := step_inv s ledOn now hinv
    exact ⟨s1, tr, h1⟩
  · intro samples
    obtain ⟨s, tr, h1, hr⟩ := run_reachable samples init Reachable.init
    have hinv := reachable_inv hr
    exact ⟨s, tr, h1, hinv.1, hinv.2.1⟩

theorem morseIndex_bounded_witness :
    ∃ s tr, run init sixteenMarks = some (s, tr) ∧ 0 ≤ s.morseIndex ∧ s.morseIndex ≤ 15 :=
  morseIndex_bounded.2.2.2 sixteenMarks

/-! ## Gap edges and steady samples -/

theorem step_steady (s : State) (now : Int) : step s s.prevState now = some (s, []) := by
  simp [step]

theorem step_falling_full (s : State) (now : Int) (hprev : s.prevState = true)
    (h : 15 ≤ s.morseIndex) :
    step s false now = some ({ s with lastTransitionTime := now, prevState := false }, []) := by
  obtain ⟨buf, idx, prev, last⟩ := s
  simp only at hprev h
  subst hprev
  have hb := fallingEdge_full ⟨buf, idx, true, now⟩ (wrapInt64 (now - last)) h
  simp [step, hb]

theorem step_rising_intra (s : State) (now : Int) (hprev : s.prevState = false)
    (h : wrapInt64 (now - s.lastTransitionTime) < 40000) :
    step s true now = some ({ s with lastTransitionTime := now, prevState := true }, []) := by
  obtain ⟨buf, idx, prev, last⟩ := s
  simp only at hprev h
  subst hprev
  simp [step, risingEdge, (gapBranch_intra_iff _).2 h]

theorem spaceIf_of_word {d : Int} (h : gapBranch d = Gap.word) : spaceIf d = [Action.logSpace] := by
  simp [spaceIf, (gapBranch_word_iff d).1 h]

theorem spaceIf_of_letter {d : Int} (h : gapBranch d = Gap.letter) : spaceIf d = [] := by
  have := ((gapBranch_letter_iff d).1 h).2
  have hn : ¬ 120000 ≤ d := by omega
  simp [spaceIf, hn]

/-- A letter or word gap on an empty buffer: no decode, `(space)` on a word gap. -/
theorem step_gap_empty (s : State) (now : Int) (hprev : s.prevState = false)
    (hidx : s.morseIndex = 0) (hsub : isInt64 (now - s.lastTransitionTime))
    (hgap : 40000 ≤ now - s.lastTransitionTime) :
    step s true now = some ({ s with lastTransitionTime := now, prevState := true },
      spaceIf (now - s.lastTransitionTime)) := by
  obtain ⟨buf, idx, prev, last⟩ := s
  simp only at hprev hidx hsub hgap
  subst hprev
  subst hidx
  have hf := flushLetter_empty ⟨buf, 0, false, now⟩ (le_refl _)
  simp only [step, wrapInt64_of_isInt64 hsub, risingEdge]
  cases hg : gapBranch (now - last) with
  | word => simp [hf, spaceIf_of_word hg]
  | letter => simp [hf, spaceIf_of_letter hg]
  | intra => have := (gapBranch_intra_iff _).1 hg; omega

/-- A letter or word gap on a non-empty buffer: the buffer is terminated at
`morseIndex`, decoded and logged, the index is reset, and `(space)` follows on
a word gap. -/
theorem step_gap_nonempty (s : State) (now : Int) (hprev : s.prevState = false)
    (h0 : 0 < s.morseIndex) (h15 : s.morseIndex ≤ 15)
    (hsub : isInt64 (now - s.lastTransitionTime))
    (hgap : 40000 ≤ now - s.lastTransitionTime) :
    ∃ b, step s true now =
        some ({ morseBuffer := b, morseIndex := 0, prevState := true, lastTransitionTime := now },
          [Action.decodeCall b.toList, Action.logDecoded (decodeMorse (buffered s))]
            ++ spaceIf (now - s.lastTransitionTime)) ∧
      b.toList = s.morseBuffer.toList.set s.morseIndex.toNat (Char.ofNat 0) ∧
      cstr b.toList = cstr (buffered s) := by
  obtain ⟨buf, idx, prev, last⟩ := s
  simp only at hprev h0 h15 hsub hgap
  subst hprev
  obtain ⟨b, hf, hl, hc⟩ := flushLetter_nonempty ⟨buf, idx, false, now⟩ h0 h15
  refine ⟨b, ?_, hl, hc⟩
  have hbuf : buffered ⟨buf, idx, false, now⟩ = buffered ⟨buf, idx, false, last⟩ := rfl
  rw [hbuf] at hf
  simp only [step, wrapInt64_of_isInt64 hsub, risingEdge]
  cases hg : gapBranch (now - last) with
  | word => simp [hf, spaceIf_of_word hg]
  | letter => simp [hf, spaceIf_of_letter hg]
  | intra => have := (gapBranch_intra_iff _).1 hg; omega

theorem buffered_length (s : State) (h0 : 0 ≤ s.morseIndex) (h15 : s.morseIndex ≤ 15) :
    (buffered s).length = s.morseIndex.toNat := by
  unfold buffered
  rw [List.length_take, buffer_length]
  omega

theorem step_falling_store (s : State) (now : Int)
    (hprev : s.prevState = true) (h0 : 0 ≤ s.morseIndex) (h15 : s.morseIndex < 15) :
    ∃ s1, step s false now = some (s1, []) ∧
      s1.morseIndex = s.morseIndex + 1 ∧
      buffered s1 = buffered s ++
        [if wrapInt64 (now - s.lastTransitionTime) < 40000 then '.' else '-'] ∧
      s1.prevState = false ∧ s1.lastTransitionTime = now := by
  obtain ⟨buf, idx, prev, last⟩ := s
  simp only at hprev h0 h15
  subst hprev
  obtain ⟨b, hb, hl⟩ :=
    fallingEdge_append ⟨buf, idx, true, now⟩ (wrapInt64 (now - last)) h0 h15
  refine ⟨⟨b, idx + 1, false, now⟩, by simp [step, hb], rfl, ?_, rfl, rfl⟩
  exact @buffered_append ⟨buf, idx, true, last⟩ ⟨b, idx + 1, false, now⟩ _ h0
    (by show idx < 16; omega) rfl hl

/-- A run over samples that hold only marks and intra-letter gaps logs
nothing, calls nothing, and leaves in the buffer the symbols it held followed
by the symbols of the marks, cut at 15. -/
theorem run_marks (samples : List (Bool × Int)) :
    ∀ (s : State) (syms : List Char), 0 ≤ s.morseIndex → s.morseIndex ≤ 15 →
      marks s.prevState s.lastTransitionTime samples = some syms →
      ∃ s1, run s samples = some (s1, []) ∧
        buffered s1 = (buffered s ++ syms).take 15 ∧
        0 ≤ s1.morseIndex ∧ s1.morseIndex ≤ 15 := by
  induction samples with
  | nil =>
    intro s syms h0 h15 hm
    simp only [marks, Option.some.injEq] at hm
    subst hm
    refine ⟨s, rfl, ?_, h0, h15⟩
    rw [List.append_nil, List.take_of_length_le]
    rw [buffered_length s h0 h15]; omega
  | cons x rest ih =>
    intro s syms h0 h15 hm
    obtain ⟨ledOn, now⟩ := x
    by_cases hedge : ledOn = s.prevState
    · subst hedge
      simp only [marks, if_true] at hm
      obtain ⟨s1, h1, h2, h3⟩ := ih s syms h0 h15 hm
      exact ⟨s1, by simp [run, step_steady, h1], h2, h3⟩
    · cases hp : s.prevState with
      | true =>
        have hl : ledOn = false := by cases ledOn <;> simp_all
        subst hl
        rw [hp] at hm
        simp only [marks, Bool.false_eq_true, if_false, if_true, Option.map_eq_some'] at hm
        obtain ⟨syms1, hm1, rfl⟩ := hm
        by_cases hfull : s.morseIndex < 15
        · obtain ⟨s1, hs1, hidx, hbuf, hprev1, hlast1⟩ := step_falling_store s now hp h0 hfull
          have hm2 : marks s1.prevState s1.lastTransitionTime rest = some syms1 := by
            rw [hprev1, hlast1]; exact hm1
          obtain ⟨s2, h1, h2, h3⟩ := ih s1 syms1 (by omega) (by omega) hm2
          refine ⟨s2, by simp [run, hs1, h1], ?_, h3⟩
          rw [h2, hbuf, List.append_assoc, List.singleton_append]
        · have hs1 := step_falling_full s now hp (by omega)
          obtain ⟨s2, h1, h2, h3⟩ := ih { s with lastTransitionTime := now, prevState := false }
            syms1 h0 h15 hm1
          refine ⟨s2, by simp [run, hs1, h1], ?_, h3⟩
          have hb : buffered { s with lastTransitionTime := now, prevState := false }
              = buffered s := rfl
          have hlen : (buffered s).length = 15 := by
            rw [buffered_length s h0 h15]; omega
          rw [h2, hb, List.take_append_of_le_length (by omega),
            List.take_append_of_le_length (by omega)]
      | false =>
        have hl : ledOn = true := by cases ledOn <;> simp_all
        subst hl
        rw [hp] at hm
        simp only [marks, Bool.true_eq_false, if_false] at hm
        by_cases hd : wrapInt64 (now - s.lastTransitionTime) < 40000
        · simp only [hd, if_true] at hm
          have hs1 := step_rising_intra s now hp hd
          obtain ⟨s2, h1, h2, h3⟩ := ih { s with lastTransitionTime := now, prevState := true }
            syms h0 h15 hm
          exact ⟨s2, by simp [run, hs1, h1], h2, h3⟩
        · simp [hd] at hm

theorem marks_isDotDash (samples : List (Bool × Int)) :
    ∀ (prev : Bool) (last : Int) (syms : List Char),
      marks prev last samples = some syms → isDotDash syms := by
  induction samples with
  | nil =>
    intro prev last syms hm
    simp only [marks, Option.some.injEq] at hm
    subst hm
    intro c hc
    simp at hc
  | cons x rest ih =>
    intro prev last syms hm
    obtain ⟨ledOn, now⟩ := x
    simp only [marks] at hm
    by_cases h1 : ledOn = prev
    · rw [if_pos h1] at hm
      exact ih _ _ _ hm
    · rw [if_neg h1] at hm
      cases prev with
      | true =>
        simp only [if_true, Option.map_eq_some'] at hm
        obtain ⟨syms1, hm1, rfl⟩ := hm
        intro c hc
        rcases List.mem_cons.1 hc with rfl | hc
        · by_cases hd : wrapInt64 (now - last) < 40000
          · simp [hd]
          · simp [hd]
        · exact ih _ _ _ hm1 c hc
      | false =>
        simp only [Bool.false_eq_true, if_false] at hm
        by_cases hd : wrapInt64 (now - last) < 40000
        · rw [if_pos hd] at hm
          exact ih _ _ _ hm
        · rw [if_neg hd] at hm
          exact absurd hm (by simp)

theorem isDotDash_take {l : List Char} (n : Nat) (h : isDotDash l) : isDotDash (l.take n) :=
  fun c hc => h c (List.mem_of_mem_take hc)

/-- C7: the capacity is exactly 15 symbols: at `morseIndex = 14` a falling
edge still appends its symbol; at `morseIndex = 15` a falling edge of any
duration changes neither the array nor `morseIndex` and logs nothing.  Hence
when the samples received from an empty buffer hold 15 or more marks and no
letter or word gap, the buffer holds exactly the first 15 symbols in order,
and a following letter- or word-gap rising edge decodes exactly that prefix. -/
theorem overflow_drops_symbols :
    (∀ (s : State) (now : Int), s.prevState = true → s.morseIndex = 14 →
      ∃ s1, step s false now = some (s1, []) ∧ s1.morseIndex = 15 ∧
        buffered s1 = buffered s ++
          [if wrapInt64 (now - s.lastTransitionTime) < 40000 then '.' else '-']) ∧
    (∀ (s : State) (now : Int), s.prevState = true → s.morseIndex = 15 →
      step s false now = some ({ s with lastTransitionTime := now, prevState := false }, [])) ∧
    (∀ (s : State) (samples : List (Bool × Int)) (syms : List Char), s.morseIndex = 0 →
      marks s.prevState s.lastTransitionTime samples = some syms → 15 ≤ syms.length →
      ∃ s1, run s samples = some (s1, []) ∧ s1.morseIndex = 15 ∧
        buffered s1 = syms.take 15 ∧
        ∀ now, s1.prevState = false → isInt64 (now - s1.lastTransitionTime) →
          40000 ≤ now - s1.lastTransitionTime →
          ∃ s2 b, step s1 true now =
              some (s2, [Action.decodeCall b, Action.logDecoded (decodeMorse (syms.take 15))]
                ++ spaceIf (now - s1.lastTransitionTime)) ∧
            cstr b = syms.take 15 ∧ s2.morseIndex = 0) := by
  refine ⟨?_, ?_, ?_⟩
  · intro s now hprev hidx
    obtain ⟨s1, h1, h2, h3, _⟩ := step_falling_store s now hprev (by omega) (by omega)
    exact ⟨s1, h1, by omega, h3⟩
  · intro s now hprev hidx
    exact step_falling_full s now hprev (by omega)
  · intro s samples syms hidx hm hlen
    obtain ⟨s1, h1, h2, h3, h4⟩ := run_marks samples s syms (by omega) (by omega) hm
    rw [buffered_of_index_zero s hidx, List.nil_append] at h2
    have hl := buffered_length s1 h3 h4
    rw [h2, List.length_take] at hl
    have hidx1 : s1.morseIndex = 15 := by omega
    refine ⟨s1, h1, hidx1, h2, ?_⟩
    intro now hprev hsub hgap
    obtain ⟨b, hb, _, hc⟩ := step_gap_nonempty s1 now hprev (by omega) h4 hsub hgap
    refine ⟨⟨b, 0, true, now⟩, b.toList, ?_, ?_, rfl⟩
    · rw [hb, h2]
    · rw [hc, h2]
      exact cstr_of_isDotDash (isDotDash_take 15 (marks_isDotDash samples _ _ _ hm))

theorem overflow_drops_symbols_witness :
    (∃ s1, run init sixteenMarks = some (s1, []) ∧ s1.morseIndex = 15 ∧
      buffered s1 = List.replicate 15 '.') ∧
    (run init (sixteenMarks ++ [(true, 400000)])).map (fun p => emitted p.2)
      = some [Action.logDecoded '?'] := by
  refine ⟨?_, by decide⟩
  obtain ⟨s1, h1, h2, h3, _⟩ :=
    overflow_drops_symbols.2.2 init sixteenMarks (List.replicate 16 '.') rfl
      (by decide) (by decide)
  exact ⟨s1, h1, h2, by rw [h3]; decide⟩

/-- C8: after a rising edge that ends a letter gap or a word gap
(`now - lastTransitionTime >= 40000`) the step is defined and the resulting
state has `morseIndex = 0`, whatever the buffer held (empty, a known
sequence or an unknown one). -/
theorem flush_empties_buffer (s : State) (now : Int) (hprev : s.prevState = false)
    (h0 : 0 ≤ s.morseIndex) (h15 : s.morseIndex ≤ 15)
    (hsub : isInt64 (now - s.lastTransitionTime))
    (hgap : 40000 ≤ now - s.lastTransitionTime) :
    ∃ s1 tr, step s true now = some (s1, tr) ∧ s1.morseIndex = 0 ∧ buffered s1 = [] := by
  by_cases hz : s.morseIndex = 0
  · exact ⟨_, _, step_gap_empty s now hprev hz hsub hgap, hz,
      buffered_of_index_zero _ hz⟩
  · obtain ⟨b, hb, _, _⟩ := step_gap_nonempty s now hprev (by omega) h15 hsub hgap
    exact ⟨_, _, hb, rfl, buffered_of_index_zero _ rfl⟩

theorem flush_empties_buffer_witness :
    (∃ s1 tr, step (holding ".-".toList 0) true 50000 = some (s1, tr) ∧ s1.morseIndex = 0 ∧
      buffered s1 = []) ∧
    (step (holding ".-".toList 0) true 50000).map (fun p => p.2)
      = some [Action.decodeCall (bufferOf ".-".toList).toList, Action.logDecoded 'A'] :=
  ⟨flush_empties_buffer (holding ".-".toList 0) 50000 rfl (by decide) (by decide) (by decide)
    (by decide), by decide⟩

theorem emitted_spaceIf (d : Int) : emitted (spaceIf d) = spaceIf d := by
  unfold spaceIf
  split_ifs <;> simp [emitted]

theorem decodeCalls_spaceIf (d : Int) : decodeCalls (spaceIf d) = [] := by
  unfold spaceIf
  split_ifs <;> simp [decodeCalls]

theorem logDecoded_not_mem_spaceIf (d : Int) (c : Char) : Action.logDecoded c ∉ spaceIf d := by
  unfold spaceIf
  split_ifs <;> simp

/-- C9: on a rising edge that ends a letter gap or a word gap
(`now - lastTransitionTime >= 40000`), in a state whose buffered symbols are
dots and dashes: a decoded character is logged exactly when
`morseIndex > 0`; it is `decodeMorse` of exactly the buffered symbols
`morseBuffer[0..morseIndex)`, which is the string the single call of
`decodeMorse` receives, and that string is not empty; with an empty buffer
`decodeMorse` is not called.  After that `(space)` is logged exactly once on
a word gap (`>= 120000`) and not at all on a letter gap, so a letter gap on
an empty buffer logs nothing. -/
theorem gap_emission (s : State) (now : Int) (hprev : s.prevState = false)
    (h0 : 0 ≤ s.morseIndex) (h15 : s.morseIndex ≤ 15) (hdd : isDotDash (buffered s))
    (hsub : isInt64 (now - s.lastTransitionTime))
    (hgap : 40000 ≤ now - s.lastTransitionTime) :
    ∃ s1 tr, step s true now = some (s1, tr) ∧
      (0 < s.morseIndex →
        (∃ b, tr = [Action.decodeCall b, Action.logDecoded (decodeMorse (buffered s))]
            ++ spaceIf (now - s.lastTransitionTime) ∧
          cstr b = buffered s ∧ buffered s ≠ []) ∧
        emitted tr = Action.logDecoded (decodeMorse (buffered s))
          :: spaceIf (now - s.lastTransitionTime)) ∧
      (s.morseIndex = 0 →
        tr = spaceIf (now - s.lastTransitionTime) ∧ decodeCalls tr = [] ∧
        emitted tr = spaceIf (now - s.lastTransitionTime)) ∧
      ((∃ c, Action.logDecoded c ∈ tr) ↔ 0 < s.morseIndex) ∧
      (∀ b ∈ decodeCalls tr, cstr b ≠ []) ∧
      (120000 ≤ now - s.lastTransitionTime →
        spaceIf (now - s.lastTransitionTime) = [Action.logSpace]) ∧
      (now - s.lastTransitionTime < 120000 → spaceIf (now - s.lastTransitionTime) = []) := by
  have hword : 120000 ≤ now - s.lastTransitionTime →
      spaceIf (now - s.lastTransitionTime) = [Action.logSpace] := by
    intro h; simp [spaceIf, h]
  have hletter : now - s.lastTransitionTime < 120000 →
      spaceIf (now - s.lastTransitionTime) = [] := by
    intro h
    have hn : ¬ 120000 ≤ now - s.lastTransitionTime := by omega
    simp [spaceIf, hn]
  by_cases hz : s.morseIndex = 0
  · refine ⟨_, _, step_gap_empty s now hprev hz hsub hgap, ?_, ?_, ?_, ?_, hword, hletter⟩
    · intro hpos; omega
    · intro _
      exact ⟨rfl, decodeCalls_spaceIf _, emitted_spaceIf _⟩
    · constructor
      · rintro ⟨c, hc⟩
        exact absurd hc (logDecoded_not_mem_spaceIf _ c)
      · intro hpos; omega
    · intro b hb
      rw [decodeCalls_spaceIf] at hb
      simp at hb
  · have hpos : 0 < s.morseIndex := by omega
    obtain ⟨b, hb, _, hc⟩ := step_gap_nonempty s now hprev hpos h15 hsub hgap
    have hself : cstr b.toList = buffered s := by rw [hc, cstr_of_isDotDash hdd]
    have hne : buffered s ≠ [] := by
      intro hnil
      have := buffered_length s h0 h15
      rw [hnil] at this
      simp at this
      omega
    have hem : emitted ([Action.decodeCall b.toList,
        Action.logDecoded (decodeMorse (buffered s))] ++ spaceIf (now - s.lastTransitionTime))
        = Action.logDecoded (decodeMorse (buffered s))
          :: spaceIf (now - s.lastTransitionTime) := by
      have := emitted_spaceIf (now - s.lastTransitionTime)
      unfold emitted at this ⊢
      simp [List.filter_cons, this]
    have hcalls : decodeCalls ([Action.decodeCall b.toList,
        Action.logDecoded (decodeMorse (buffered s))] ++ spaceIf (now - s.lastTransitionTime))
        = [b.toList] := by
      have := decodeCalls_spaceIf (now - s.lastTransitionTime)
      unfold decodeCalls at this ⊢
      simp [List.filterMap_cons, this]
    refine ⟨_, _, hb, ?_, ?_, ?_, ?_, hword, hletter⟩
    · intro _
      exact ⟨⟨b.toList, rfl, hself, hne⟩, hem⟩
    · intro h; exact absurd h hz
    · constructor
      · intro _; exact hpos
      · intro _; exact ⟨decodeMorse (buffered s), by simp⟩
    · intro b1 hb1
      rw [hcalls] at hb1
      simp only [List.mem_singleton] at hb1
      rw [hb1, hself]; exact hne

theorem gap_emission_witness :
    ∃ s1 tr, step (holding "-----".toList 0) true 120000 = some (s1, tr) ∧
      emitted tr = [Action.logDecoded '0', Action.logSpace] := by
  obtain ⟨s1, tr, h1, h2, _⟩ :=
    gap_emission (holding "-----".toList 0) 120000 rfl (by decide) (by decide) (by decide)
      (by decide) (by decide)
  refine ⟨s1, tr, h1, ?_⟩
  rw [(h2 (by decide)).2]
  decide

theorem run_steady (s : State) (steady rest : List (Bool × Int))
    (h : ∀ x ∈ steady, x.1 = s.prevState) : run s (steady ++ rest) = run s rest := by
  induction steady with
  | nil => rfl
  | cons x xs ih =>
    obtain ⟨ledOn, now⟩ := x
    have hx : ledOn = s.prevState := h (ledOn, now) (by simp)
    subst hx
    have hrun : run s ((s.prevState, now) :: (xs ++ rest)) = run s (xs ++ rest) := by
      simp only [run, step_steady]
      cases run s (xs ++ rest) with
      | none => rfl
      | some p => simp
    rw [List.cons_append, hrun]
    exact ih (fun y hy => h y (List.mem_cons_of_mem _ hy))

/-- C10: a sample whose signal state equals `prevState` logs nothing and
leaves `prevState`, `lastTransitionTime`, `morseBuffer` and `morseIndex`
unchanged, whatever its timestamp; so any number of such samples in front of
further samples is equivalent to none. -/
theorem steady_sample_no_transition (s : State) (ledOn : Bool) (now : Int)
    (h : ledOn = s.prevState) :
    step s ledOn now = some (s, []) ∧
    ∀ (steady rest : List (Bool × Int)), (∀ x ∈ steady, x.1 = s.prevState) →
      run s (steady ++ rest) = run s rest := by
  subst h
  exact ⟨step_steady s now, run_steady s⟩

theorem steady_sample_no_transition_witness :
    step (holding ".-".toList 7) false 123456 = some (holding ".-".toList 7, []) ∧
    run (holding ".-".toList 7) ([(false, 10), (false, 999999)] ++ [(true, 50000)])
      = run (holding ".-".toList 7) [(true, 50000)] :=
  ⟨(steady_sample_no_transition (holding ".-".toList 7) false 123456 rfl).1,
   (steady_sample_no_transition (holding ".-".toList 7) false 123456 rfl).2
     [(false, 10), (false, 999999)] [(true, 50000)] (by decide)⟩

/-! ## The five-dot sequence, sequence lengths and emission order -/

theorem table_lengths : ∀ p ∈ table, 1 ≤ p.1.length ∧ p.1.length ≤ 5 := by decide

/-- C13 (as the code has it): the five-dot sequence `.....` is in the lookup
table, paired with `'5'`, and `decodeMorse(".....")` returns `'5'`. -/
theorem decodeMorse_five_dots :
    (".....".toList, '5') ∈ table ∧ decodeMorse ".....".toList = '5' := by
  decide

/-- C13 (as stated) fails: `.....` is one of the table sequences and its
decoding is not `'?'`. -/
theorem decodeMorse_five_dots_not_unknown :
    ".....".toList ∈ morseSequences ∧ decodeMorse ".....".toList ≠ '?' := by
  decide

/-- C17: every table sequence has between 1 and 5 symbols, so `decodeMorse`
returns `'?'` for every string of length 0 or greater than 5; in particular,
when the buffer holds 15 symbols, a letter- or word-gap rising edge logs
`'?'` as the decoded character. -/
theorem long_sequences_unknown :
    (∀ p ∈ table, 1 ≤ p.1.length ∧ p.1.length ≤ 5) ∧
    (∀ code : List Char, (cstr code).length = 0 ∨ 5 < (cstr code).length →
      decodeMorse code = '?') ∧
    (∀ (s : State) (now : Int), s.prevState = false → s.morseIndex = 15 →
      isDotDash (buffered s) → isInt64 (now - s.lastTransitionTime) →
      40000 ≤ now - s.lastTransitionTime →
      ∃ s1 b, step s true now =
          some (s1, [Action.decodeCall b, Action.logDecoded '?']
            ++ spaceIf (now - s.lastTransitionTime)) ∧
        cstr b = buffered s ∧ (buffered s).length = 15 ∧ s1.morseIndex = 0) := by
  have hlen : ∀ code : List Char, (cstr code).length = 0 ∨ 5 < (cstr code).length →
      decodeMorse code = '?' := by
    intro code h
    apply decodeMorse_not_in_table
    intro hmem
    obtain ⟨p, hp, hpe⟩ := List.mem_map.1 hmem
    have := table_lengths p hp
    rw [hpe] at this
    omega
  refine ⟨table_lengths, hlen, ?_⟩
  intro s now hprev hidx hdd hsub hgap
  obtain ⟨b, hb, _, hc⟩ := step_gap_nonempty s now hprev (by omega) (by omega) hsub hgap
  have hl : (buffered s).length = 15 := by
    rw [buffered_length s (by omega) (by omega), hidx]; rfl
  have hself : cstr (buffered s) = buffered s := cstr_of_isDotDash hdd
  have hq : decodeMorse (buffered s) = '?' := hlen _ (Or.inr (by rw [hself, hl]; decide))
  refine ⟨⟨b, 0, true, now⟩, b.toList, ?_, by rw [hc, hself], hl, rfl⟩
  rw [hb, hq]

theorem long_sequences_unknown_witness :
    decodeMorse [] = '?' ∧ decodeMorse "......".toList = '?' ∧
    ∃ s1 b, step (holding (List.replicate 15 '-') 0) true 50000 =
        some (s1, [Action.decodeCall b, Action.logDecoded '?'] ++ spaceIf (50000 - 0)) ∧
      cstr b = List.replicate 15 '-' := by
  refine ⟨long_sequences_unknown.2.1 [] (Or.inl (by decide)),
    long_sequences_unknown.2.1 "......".toList (Or.inr (by decide)), ?_⟩
  obtain ⟨s1, b, h1, h2, _⟩ :=
    long_sequences_unknown.2.2 (holding (List.replicate 15 '-') 0) 50000 rfl (by decide)
      (by decide) (by decide) (by decide)
  exact ⟨s1, b, h1, by rw [h2]; decide⟩

/-- C12: on a rising edge after a gap of 120 ms or more with a non-empty
buffer, the step logs the decoded character first and `(space)` second, and
nothing else. -/
theorem word_gap_emission_order (s : State) (now : Int) (hprev : s.prevState = false)
    (h0 : 0 < s.morseIndex) (h15 : s.morseIndex ≤ 15)
    (hsub : isInt64 (now - s.lastTransitionTime))
    (hgap : 120000 ≤ now - s.lastTransitionTime) :
    ∃ s1 tr, step s true now = some (s1, tr) ∧
      emitted tr = [Action.logDecoded (decodeMorse (buffered s)), Action.logSpace] ∧
      ∃ b, tr = [Action.decodeCall b, Action.logDecoded (decodeMorse (buffered s)),
        Action.logSpace] := by
  obtain ⟨b, hb, _, _⟩ := step_gap_nonempty s now hprev h0 h15 hsub (by omega)
  have hsp : spaceIf (now - s.lastTransitionTime) = [Action.logSpace] := by
    simp [spaceIf, hgap]
  rw [hsp] at hb
  exact ⟨_, _, hb, by simp [emitted], b.toList, rfl⟩

theorem word_gap_emission_order_witness :
    ∃ s1 tr, step (holding "-----".toList 3000) true 153000 = some (s1, tr) ∧
      emitted tr = [Action.logDecoded '0', Action.logSpace] := by
  obtain ⟨s1, tr, h1, h2, _⟩ :=
    word_gap_emission_order (holding "-----".toList 3000) 153000 rfl (by decide) (by decide)
      (by decide) (by decide)
  exact ⟨s1, tr, h1, by rw [h2]; decide⟩

/-! ## Frame lemmas: what each block leaves alone -/

theorem fallingEdge_frame {s s1 : State} {d : Int} {tr : List Action}
    (h : fallingEdge s d = some (s1, tr)) :
    s1.prevState = s.prevState ∧ s1.lastTransitionTime = s.lastTransitionTime ∧ tr = [] := by
  unfold fallingEdge at h
  split_ifs at h with h1 h2
  · cases hs : store s.morseBuffer s.morseIndex '.' with
    | none => simp [hs] at h
    | some b =>
      simp only [hs, Option.some.injEq, Prod.mk.injEq] at h
      obtain ⟨rfl, rfl⟩ := h
      exact ⟨rfl, rfl, rfl⟩
  · cases hs : store s.morseBuffer s.morseIndex '-' with
    | none => simp [hs] at h
    | some b =>
      simp only [hs, Option.some.injEq, Prod.mk.injEq] at h
      obtain ⟨rfl, rfl⟩ := h
      exact ⟨rfl, rfl, rfl⟩
  · simp only [Option.some.injEq, Prod.mk.injEq] at h
    obtain ⟨rfl, rfl⟩ := h
    exact ⟨rfl, rfl, rfl⟩

theorem flushLetter_frame {s s1 : State} {tr : List Action}
    (h : flushLetter s = some (s1, tr)) :
    s1.prevState = s.prevState ∧ s1.lastTransitionTime = s.lastTransitionTime := by
  unfold flushLetter at h
  split_ifs at h with h1
  · cases hs : store s.morseBuffer s.morseIndex (Char.ofNat 0) with
    | none => simp [hs] at h
    | some b =>
      simp only [hs, Option.some.injEq, Prod.mk.injEq] at h
      obtain ⟨rfl, _⟩ := h
      exact ⟨rfl, rfl⟩
  · simp only [Option.some.injEq, Prod.mk.injEq] at h
    obtain ⟨rfl, _⟩ := h
    exact ⟨rfl, rfl⟩

theorem risingEdge_frame {s s1 : State} {d : Int} {tr : List Action}
    (h : risingEdge s d = some (s1, tr)) :
    s1.prevState = s.prevState ∧ s1.lastTransitionTime = s.lastTransitionTime ∧
      (d < 40000 → tr = []) := by
  unfold risingEdge at h
  cases hg : gapBranch d with
  | word =>
    have hd := (gapBranch_word_iff d).1 hg
    simp only [hg] at h
    cases hf : flushLetter s with
    | none => simp [hf] at h
    | some p =>
      obtain ⟨s2, tr2⟩ := p
      simp only [hf, Option.some.injEq, Prod.mk.injEq] at h
      obtain ⟨rfl, _⟩ := h
      obtain ⟨h1, h2⟩ := flushLetter_frame hf
      exact ⟨h1, h2, fun hlt => by omega⟩
  | letter =>
    have hd := (gapBranch_letter_iff d).1 hg
    simp only [hg] at h
    obtain ⟨h1, h2⟩ := flushLetter_frame h
    exact ⟨h1, h2, fun hlt => by omega⟩
  | intra =>
    simp only [hg, Option.some.injEq, Prod.mk.injEq] at h
    obtain ⟨rfl, rfl⟩ := h
    exact ⟨rfl, rfl, fun _ => rfl⟩

/-- A defined step on a transition records the new signal state and the
timestamp; a step logs or calls something only on a rising edge after
40000 microseconds or more. -/
theorem step_frame {s s1 : State} {ledOn : Bool} {now : Int} {tr : List Action}
    (h : step s ledOn now = some (s1, tr)) :
    (ledOn = s.prevState → s1 = s ∧ tr = []) ∧
    (ledOn ≠ s.prevState → s1.prevState = ledOn ∧ s1.lastTransitionTime = now) ∧
    (tr ≠ [] → s.prevState = false ∧ ledOn = true ∧
      40000 ≤ wrapInt64 (now - s.lastTransitionTime)) := by
  obtain ⟨buf, idx, prev, last⟩ := s
  by_cases hedge : ledOn = prev
  · subst hedge
    rw [step_steady ⟨buf, idx, ledOn, last⟩ now] at h
    simp only [Option.some.injEq, Prod.mk.injEq] at h
    obtain ⟨rfl, rfl⟩ := h
    exact ⟨fun _ => ⟨rfl, rfl⟩, fun hne => absurd rfl hne, fun hne => absurd rfl hne⟩
  · have hb : (ledOn != prev) = true := by simpa using hedge
    simp only [step, hb, if_true] at h
    cases prev with
    | true =>
      have hl : ledOn = false := by cases ledOn <;> simp_all
      subst hl
      simp only [if_true] at h
      cases hf : fallingEdge ⟨buf, idx, true, now⟩ (wrapInt64 (now - last)) with
      | none => simp [hf] at h
      | some p =>
        obtain ⟨s2, tr2⟩ := p
        simp only [hf, Option.some.injEq, Prod.mk.injEq] at h
        obtain ⟨rfl, rfl⟩ := h
        obtain ⟨_, h2, h3⟩ := fallingEdge_frame hf
        exact ⟨fun he => absurd he hedge, fun _ => ⟨rfl, h2⟩, fun hne => absurd h3 hne⟩
    | false =>
      have hl : ledOn = true := by cases ledOn <;> simp_all
      subst hl
      simp only [Bool.false_eq_true, if_false] at h
      cases hf : risingEdge ⟨buf, idx, false, now⟩ (wrapInt64 (now - last)) with
      | none => simp [hf] at h
      | some p =>
        obtain ⟨s2, tr2⟩ := p
        simp only [hf, Option.some.injEq, Prod.mk.injEq] at h
        obtain ⟨rfl, rfl⟩ := h
        obtain ⟨_, h2, h3⟩ := risingEdge_frame hf
        refine ⟨fun he => absurd he hedge, fun _ => ⟨rfl, h2⟩, fun hne => ⟨rfl, rfl, ?_⟩⟩
        show 40000 ≤ wrapInt64 (now - last)
        by_contra hlt
        exact hne (h3 (by omega))

theorem step_gap_flush (s : State) (now : Int) (hprev : s.prevState = false)
    (h0 : 0 ≤ s.morseIndex) (h15 : s.morseIndex ≤ 15)
    (hgap : 40000 ≤ wrapInt64 (now - s.lastTransitionTime)) :
    ∃ s1 tr, step s true now = some (s1, tr) ∧ s1.morseIndex = 0 := by
  obtain ⟨buf, idx, prev, last⟩ := s
  simp only at hprev h0 h15 hgap
  subst hprev
  have hflush : ∃ s1 tr, flushLetter ⟨buf, idx, false, now⟩ = some (s1, tr) ∧
      s1.morseIndex = 0 := by
    by_cases hz : idx ≤ 0
    · exact ⟨⟨buf, idx, false, now⟩, [], flushLetter_empty _ hz, by show idx = 0; omega⟩
    · obtain ⟨b, hb, _, _⟩ := flushLetter_nonempty ⟨buf, idx, false, now⟩
        (by show 0 < idx; omega) h15
      exact ⟨⟨b, 0, false, now⟩, _, hb, rfl⟩
  obtain ⟨s1, tr, hf, hidx⟩ := hflush
  simp only [step, risingEdge]
  cases hg : gapBranch (wrapInt64 (now - last)) with
  | word => exact ⟨{ s1 with prevState := true }, tr ++ [Action.logSpace], by simp [hf], hidx⟩
  | letter => exact ⟨{ s1 with prevState := true }, tr, by simp [hf], hidx⟩
  | intra => have := (gapBranch_intra_iff _).1 hg; omega

/-- A step from a state within the bounds is defined, stays within the
bounds, and changes the buffered symbols as the list model does. -/
theorem step_buffered (s : State) (ledOn : Bool) (now : Int)
    (h0 : 0 ≤ s.morseIndex) (h15 : s.morseIndex ≤ 15) :
    ∃ s1 tr, step s ledOn now = some (s1, tr) ∧ 0 ≤ s1.morseIndex ∧ s1.morseIndex ≤ 15 ∧
      buffered s1 =
        (if ledOn = s.prevState then buffered s
         else if s.prevState then
          (if (buffered s).length < 15 then
            buffered s ++ [if wrapInt64 (now - s.lastTransitionTime) < 40000 then '.' else '-']
           else buffered s)
         else (if 40000 ≤ wrapInt64 (now - s.lastTransitionTime) then [] else buffered s)) := by
  have hlen := buffered_length s h0 h15
  by_cases hedge : ledOn = s.prevState
  · subst hedge
    exact ⟨s, [], step_steady s now, h0, h15, by simp⟩
  · cases hp : s.prevState with
    | true =>
      have hl : ledOn = false := by cases ledOn <;> simp_all
      subst hl
      by_cases hfull : s.morseIndex < 15
      · obtain ⟨s1, hs1, hidx, hbuf, _, _⟩ := step_falling_store s now hp h0 hfull
        have hlt : (buffered s).length < 15 := by rw [hlen]; omega
        exact ⟨s1, [], hs1, by omega, by omega, by simp [hbuf, hlt]⟩
      · have hs1 := step_falling_full s now hp (by omega)
        have hnlt : ¬ (buffered s).length < 15 := by rw [hlen]; omega
        refine ⟨_, [], hs1, h0, h15, ?_⟩
        have hb : buffered { s with lastTransitionTime := now, prevState := false }
            = buffered s := rfl
        simp [hb, hnlt]
    | false =>
      have hl : ledOn = true := by cases ledOn <;> simp_all
      subst hl
      by_cases hd : wrapInt64 (now - s.lastTransitionTime) < 40000
      · have hs1 := step_rising_intra s now hp hd
        have hn : ¬ 40000 ≤ wrapInt64 (now - s.lastTransitionTime) := by omega
        refine ⟨_, [], hs1, h0, h15, ?_⟩
        have hb : buffered { s with lastTransitionTime := now, prevState := true }
            = buffered s := rfl
        simp [hb, hn]
      · have hge : 40000 ≤ wrapInt64 (now - s.lastTransitionTime) := by omega
        obtain ⟨s1, tr, hs1, hidx⟩ := step_gap_flush s now hp h0 h15 hge
        exact ⟨s1, tr, hs1, by omega, by omega,
          by simp [buffered_of_index_zero s1 hidx, hge]⟩

theorem run_cons_of_step {s s1 s2 : State} {ledOn : Bool} {now : Int}
    {tr1 tr2 : List Action} {rest : List (Bool × Int)}
    (h1 : step s ledOn now = some (s1, tr1)) (h2 : run s1 rest = some (s2, tr2)) :
    run s ((ledOn, now) :: rest) = some (s2, tr1 ++ tr2) := by
  simp [run, h1, h2]

theorem run_append {s s1 s2 : State} {a b : List (Bool × Int)} {tr1 tr2 : List Action}
    (h1 : run s a = some (s1, tr1)) (h2 : run s1 b = some (s2, tr2)) :
    run s (a ++ b) = some (s2, tr1 ++ tr2) := by
  induction a generalizing s tr1 with
  | nil =>
    simp only [run, Option.some.injEq, Prod.mk.injEq] at h1
    obtain ⟨rfl, rfl⟩ := h1
    simpa using h2
  | cons x xs ih =>
    obtain ⟨ledOn, now⟩ := x
    simp only [run] at h1
    cases hs : step s ledOn now with
    | none => simp [hs] at h1
    | some p =>
      obtain ⟨s3, tr3⟩ := p
      simp only [hs] at h1
      cases hr : run s3 xs with
      | none => simp [hr] at h1
      | some q =>
        obtain ⟨s4, tr4⟩ := q
        simp only [hr, Option.some.injEq, Prod.mk.injEq] at h1
        obtain ⟨rfl, rfl⟩ := h1
        rw [List.cons_append, run_cons_of_step hs (ih hr), List.append_assoc]

/-- A defined run ends with the signal state and the timestamp of the last
transition among its samples recorded. -/
theorem run_edges (samples : List (Bool × Int)) :
    ∀ (s s1 : State) (tr : List Action), run s samples = some (s1, tr) →
      (s1.prevState, s1.lastTransitionTime) =
        edges s.prevState s.lastTransitionTime samples := by
  induction samples with
  | nil =>
    intro s s1 tr h
    simp only [run, Option.some.injEq, Prod.mk.injEq] at h
    obtain ⟨rfl, _⟩ := h
    rfl
  | cons x rest ih =>
    intro s s1 tr h
    obtain ⟨ledOn, now⟩ := x
    simp only [run] at h
    cases hs : step s ledOn now with
    | none => simp [hs] at h
    | some p =>
      obtain ⟨s3, tr3⟩ := p
      simp only [hs] at h
      cases hr : run s3 rest with
      | none => simp [hr] at h
      | some q =>
        obtain ⟨s4, tr4⟩ := q
        simp only [hr, Option.some.injEq, Prod.mk.injEq] at h
        obtain ⟨rfl, _⟩ := h
        rw [ih s3 s4 tr4 hr]
        obtain ⟨hst, hne, _⟩ := step_frame hs
        by_cases hedge : ledOn = s.prevState
        · obtain ⟨rfl, _⟩ := hst hedge
          have hb : (ledOn != s3.prevState) = false := by simp [hedge]
          simp [edges, hb]
        · obtain ⟨h1, h2⟩ := hne hedge
          have hb : (ledOn != s.prevState) = true := by simpa using hedge
          simp [edges, hb, h1, h2]

/-- The buffered symbols after a run from a state within the bounds are those
of the list model. -/
theorem run_pending (samples : List (Bool × Int)) :
    ∀ (s : State), 0 ≤ s.morseIndex → s.morseIndex ≤ 15 →
      ∃ s1 tr, run s samples = some (s1, tr) ∧ 0 ≤ s1.morseIndex ∧ s1.morseIndex ≤ 15 ∧
        buffered s1 =
          pendingSymbols s.prevState s.lastTransitionTime (buffered s) samples := by
  induction samples with
  | nil => intro s h0 h15; exact ⟨s, [], rfl, h0, h15, rfl⟩
  | cons x rest ih =>
    intro s h0 h15
    obtain ⟨ledOn, now⟩ := x
    obtain ⟨s1, tr1, hs1, h01, h151, hbuf⟩ := step_buffered s ledOn now h0 h15
    obtain ⟨s2, tr2, hs2, h02, h152, hbuf2⟩ := ih s1 h01 h151
    refine ⟨s2, tr1 ++ tr2, run_cons_of_step hs1 hs2, h02, h152, ?_⟩
    rw [hbuf2, hbuf]
    obtain ⟨hst, hne, _⟩ := step_frame hs1
    by_cases hedge : ledOn = s.prevState
    · obtain ⟨rfl, _⟩ := hst hedge
      simp [pendingSymbols, hedge]
    · obtain ⟨h1, h2⟩ := hne hedge
      rw [h1, h2]
      cases hp : s.prevState with
      | true =>
        rw [hp] at hedge
        simp [pendingSymbols, hedge]
      | false =>
        rw [hp] at hedge
        simp [pendingSymbols, hedge]

/-! ## Start-up, one letter end to end -/

/-- A rising edge on an empty buffer records the transition and logs
`(space)` exactly when the gap was 120000 microseconds or more. -/
theorem step_rising_empty (s : State) (now : Int) (hprev : s.prevState = false)
    (hidx : s.morseIndex = 0) :
    step s true now = some ({ s with lastTransitionTime := now, prevState := true },
      spaceIf (wrapInt64 (now - s.lastTransitionTime))) := by
  obtain ⟨buf, idx, prev, last⟩ := s
  simp only at hprev hidx
  subst hprev
  subst hidx
  have hf := flushLetter_empty ⟨buf, 0, false, now⟩ (le_refl _)
  simp only [step, risingEdge]
  cases hg : gapBranch (wrapInt64 (now - last)) with
  | word => simp [hf, spaceIf_of_word hg]
  | letter => simp [hf, spaceIf_of_letter hg]
  | intra =>
    have hlt := (gapBranch_intra_iff _).1 hg
    have hn : ¬ 120000 ≤ wrapInt64 (now - last) := by omega
    simp [spaceIf, hn]

/-- C11 (amended): for every (sequence, letter) pair of the table, from a
state with an empty buffer and the signal inactive: the rising edge that
starts the first mark logs `(space)` exactly when it comes 120 ms or more
after the previous transition and nothing when it comes earlier; the samples
after it, holding one mark per symbol of the sequence (shorter than 40 ms for
`'.'`, 40 ms or more for `'-'`) separated by gaps shorter than 40 ms, log
nothing and leave the sequence in the buffer; a final rising edge after a gap
`g` with `40 ms <= g < 120 ms` then logs exactly that letter and leaves the
buffer empty. -/
theorem decode_one_letter (s : State) (t1 now : Int) (rest : List (Bool × Int))
    (p : List Char × Char) (hp : p ∈ table)
    (hidx : s.morseIndex = 0) (hprev : s.prevState = false)
    (hmarks : marks true t1 rest = some p.1)
    (hend : (edges true t1 rest).1 = false)
    (hsub : isInt64 (now - (edges true t1 rest).2))
    (hlo : 40000 ≤ now - (edges true t1 rest).2)
    (hhi : now - (edges true t1 rest).2 < 120000) :
    ∃ s0 s1 s2 b,
      step s true t1 = some (s0, spaceIf (wrapInt64 (t1 - s.lastTransitionTime))) ∧
      (wrapInt64 (t1 - s.lastTransitionTime) < 120000 →
        spaceIf (wrapInt64 (t1 - s.lastTransitionTime)) = []) ∧
      run s0 rest = some (s1, []) ∧ buffered s1 = p.1 ∧
      step s1 true now = some (s2, [Action.decodeCall b, Action.logDecoded p.2]) ∧
      cstr b = p.1 ∧ s2.morseIndex = 0 ∧ buffered s2 = [] ∧
      run s ((true, t1) :: rest ++ [(true, now)]) =
        some (s2, spaceIf (wrapInt64 (t1 - s.lastTransitionTime))
          ++ [Action.decodeCall b, Action.logDecoded p.2]) := by
  have hs0 := step_rising_empty s t1 hprev hidx
  have hsp : wrapInt64 (t1 - s.lastTransitionTime) < 120000 →
      spaceIf (wrapInt64 (t1 - s.lastTransitionTime)) = [] := by
    intro h
    have hn : ¬ 120000 ≤ wrapInt64 (t1 - s.lastTransitionTime) := by omega
    simp [spaceIf, hn]
  obtain ⟨s1, hs1, hbuf, h01, h151⟩ :=
    run_marks rest { s with lastTransitionTime := t1, prevState := true } p.1
      (by show 0 ≤ s.morseIndex; omega) (by show s.morseIndex ≤ 15; omega) hmarks
  have hb0 : buffered { s with lastTransitionTime := t1, prevState := true } = [] :=
    buffered_of_index_zero _ hidx
  have hlen := table_lengths p hp
  rw [hb0, List.nil_append, List.take_of_length_le (by omega)] at hbuf
  have hedges := run_edges rest _ _ _ hs1
  simp only at hedges
  have hprev1 : s1.prevState = false := by
    have := congrArg Prod.fst hedges
    simp only at this
    rw [this]; exact hend
  have hlast1 : s1.lastTransitionTime = (edges true t1 rest).2 := by
    have := congrArg Prod.snd hedges
    simpa using this
  have hpos : 0 < s1.morseIndex := by
    have := buffered_length s1 h01 h151
    rw [hbuf] at this
    omega
  rw [← hlast1] at hsub hlo hhi
  obtain ⟨b, hb, _, hc⟩ := step_gap_nonempty s1 now hprev1 hpos h151 hsub hlo
  have hn : ¬ 120000 ≤ now - s1.lastTransitionTime := by omega
  have hsp2 : spaceIf (now - s1.lastTransitionTime) = [] := by simp [spaceIf, hn]
  rw [hsp2, List.append_nil, hbuf, table_roundtrip p hp] at hb
  rw [hbuf, table_cstr p hp] at hc
  refine ⟨_, s1, ⟨b, 0, true, now⟩, b.toList, hs0, hsp, hs1, hbuf, hb, hc, rfl,
    buffered_of_index_zero _ rfl, ?_⟩
  have hrun1 : run s ((true, t1) :: rest) =
      some (s1, spaceIf (wrapInt64 (t1 - s.lastTransitionTime)) ++ []) :=
    run_cons_of_step hs0 hs1
  have hrun2 : run s1 [(true, now)] =
      some (⟨b, 0, true, now⟩, [Action.decodeCall b.toList, Action.logDecoded p.2] ++ []) :=
    run_cons_of_step hb rfl
  have := run_append hrun1 hrun2
  simpa using this

theorem decode_one_letter_witness :
    ∃ s2 b, run init ((true, 10000) :: letterARest ++ [(true, 150000)]) =
        some (s2, spaceIf (wrapInt64 (10000 - init.lastTransitionTime))
          ++ [Action.decodeCall b, Action.logDecoded 'A']) ∧
      spaceIf (wrapInt64 (10000 - init.lastTransitionTime)) = [] ∧
      s2.morseIndex = 0 := by
  obtain ⟨_, _, s2, b, _, h2, _, _, _, _, h7, _, h9⟩ :=
    decode_one_letter init 10000 150000 letterARest (".-".toList, 'A') (by decide) rfl rfl
      (by decide) (by decide) (by decide) (by decide) (by decide)
  exact ⟨s2, b, h9, h2 (by decide), h7⟩

/-- C11 (as stated) fails: from the initial state (empty buffer, signal
inactive) with the first mark of `.-` starting at 200 ms, the marks of the
sequence separated by a 15 ms gap and a final rising edge after a 50 ms gap,
the first rising edge logs `(space)`, so the run logs `(space)` and then
`'A'`, not the letter alone. -/
theorem decode_one_letter_late_start :
    (".-".toList, 'A') ∈ table ∧ init.morseIndex = 0 ∧ init.prevState = false ∧
    marks true 200000 letterALate = some ".-".toList ∧
    edges true 200000 letterALate = (false, 290000) ∧
    (40000 ≤ 340000 - 290000 ∧ 340000 - 290000 < (120000 : Int)) ∧
    (step init true 200000).map (fun p => emitted p.2) = some [Action.logSpace] ∧
    (run init ((true, 200000) :: letterALate ++ [(true, 340000)])).map
        (fun p => emitted p.2) = some [Action.logSpace, Action.logDecoded 'A'] ∧
    (run init ((true, 200000) :: letterALate ++ [(true, 340000)])).map
        (fun p => emitted p.2) ≠ some [Action.logDecoded 'A'] := by
  decide

/-- C18: from the initial state, samples with the signal inactive log nothing
and change nothing; the first active sample, at timestamp `t`, is a rising
edge with elapsed duration `t - 0`: it logs exactly `(space)` when
`t >= 120000` and nothing when `t < 120000`, no character either way, and the
buffer stays empty. -/
theorem startup_behaviour (steady : List (Bool × Int)) (t : Int)
    (hsteady : ∀ x ∈ steady, x.1 = false) (ht : isInt64 t) :
    (init.prevState = false ∧ init.lastTransitionTime = 0 ∧ init.morseIndex = 0) ∧
    run init steady = some (init, []) ∧
    run init (steady ++ [(true, t)]) =
      some ({ init with lastTransitionTime := t, prevState := true }, spaceIf t) ∧
    (120000 ≤ t → spaceIf t = [Action.logSpace]) ∧
    (t < 120000 → spaceIf t = []) ∧
    buffered { init with lastTransitionTime := t, prevState := true } = [] := by
  have hst : ∀ x ∈ steady, x.1 = init.prevState := hsteady
  have h1 : run init steady = some (init, []) := by
    have := run_steady init steady [] hst
    simpa [run] using this
  have hw : wrapInt64 (t - init.lastTransitionTime) = t := by
    have : t - init.lastTransitionTime = t := by show t - 0 = t; omega
    rw [this]; exact wrapInt64_of_isInt64 ht
  have h2 : run init [(true, t)] =
      some ({ init with lastTransitionTime := t, prevState := true }, spaceIf t ++ []) := by
    have hs := step_rising_empty init t rfl rfl
    rw [hw] at hs
    exact run_cons_of_step hs rfl
  refine ⟨⟨rfl, rfl, rfl⟩, h1, ?_, ?_, ?_, rfl⟩
  · have := run_append h1 h2
    simpa using this
  · intro h; simp [spaceIf, h]
  · intro h
    have hn : ¬ 120000 ≤ t := by omega
    simp [spaceIf, hn]

theorem startup_behaviour_witness :
    run init ([(false, 10000), (false, 20000)] ++ [(true, 120000)]) =
      some ({ init with lastTransitionTime := 120000, prevState := true },
        [Action.logSpace]) ∧
    run init ([(false, 10000), (false, 20000)] ++ [(true, 119999)]) =
      some ({ init with lastTransitionTime := 119999, prevState := true }, []) := by
  have h1 := startup_behaviour [(false, 10000), (false, 20000)] 120000 (by decide) (by decide)
  have h2 := startup_behaviour [(false, 10000), (false, 20000)] 119999 (by decide) (by decide)
  refine ⟨?_, ?_⟩
  · rw [h1.2.2.1, h1.2.2.2.1 (by decide)]
  · rw [h2.2.2.1, h2.2.2.2.2.1 (by decide)]

/-! ## Buffer contents, recorded transitions, alternation -/

/-- C14: in every reachable state the `morseIndex` stored elements
`morseBuffer[0..morseIndex)` are dots and dashes, and after any run from the
initial state they are exactly the symbols appended since the last flush, in
the order of their falling edges (the list model `pendingSymbols`).  A
falling edge and a rising edge after less than 40000 microseconds call
nothing and log nothing; a step whose trace is not empty (a call of
`decodeMorse` or a log line) is a rising edge after 40000 microseconds or
more. -/
theorem buffer_content_invariant :
    (∀ s, Reachable s →
      isDotDash (buffered s) ∧ (buffered s).length = s.morseIndex.toNat) ∧
    (∀ samples, ∃ s tr, run init samples = some (s, tr) ∧ isDotDash (buffered s) ∧
      buffered s = pendingSymbols false 0 [] samples) ∧
    (∀ s now, Reachable s → s.prevState = true →
      ∃ s1, step s false now = some (s1, [])) ∧
    (∀ s now, Reachable s → s.prevState = false →
      wrapInt64 (now - s.lastTransitionTime) < 40000 →
      ∃ s1, step s true now = some (s1, [])) ∧
    (∀ s ledOn now s1 tr, step s ledOn now = some (s1, tr) → tr ≠ [] →
      s.prevState = false ∧ ledOn = true ∧
        40000 ≤ wrapInt64 (now - s.lastTransitionTime)) := by
  refine ⟨?_, ?_, ?_, ?_, ?_⟩
  · intro s hs
    obtain ⟨h0, h15, hdd⟩ := reachable_inv hs
    exact ⟨hdd, buffered_length s h0 h15⟩
  · intro samples
    obtain ⟨s, tr, hrun, _, _, hbuf⟩ := run_pending samples init (by decide) (by decide)
    obtain ⟨s2, tr2, hrun2, hr⟩ := run_reachable samples init Reachable.init
    rw [hrun] at hrun2
    simp only [Option.some.injEq, Prod.mk.injEq] at hrun2
    obtain ⟨rfl, _⟩ := hrun2
    exact ⟨s, tr, hrun, (reachable_inv hr).2.2, hbuf⟩
  · intro s now hs hprev
    obtain ⟨h0, h15, _⟩ := reachable_inv hs
    obtain ⟨s1, tr, hstep, _⟩ := step_buffered s false now h0 h15
    obtain ⟨_, _, htr⟩ := step_frame hstep
    have : tr = [] := by
      by_contra hne
      have := (htr hne).1
      rw [hprev] at this
      exact absurd this (by decide)
    rw [this] at hstep
    exact ⟨s1, hstep⟩
  · intro s now hs hprev hlt
    exact ⟨_, step_rising_intra s now hprev hlt⟩
  · intro s ledOn now s1 tr hstep hne
    exact (step_frame hstep).2.2 hne

theorem buffer_content_invariant_witness :
    ∃ s tr, run init ((true, 10000) :: letterARest) = some (s, tr) ∧
      buffered s = ".-".toList := by
  obtain ⟨s, tr, h1, _, h3⟩ := buffer_content_invariant.2.1 ((true, 10000) :: letterARest)
  exact ⟨s, tr, h1, by rw [h3]; decide⟩

/-- C15: every sample with `ledOn != prevState`, in a state within the
bounds, leads to a state with `prevState = ledOn` and
`lastTransitionTime = now`, whichever branch runs, and the duration the
branch classifies is `now - lastTransitionTime` of the state before (reduced
to `int64_t`).  After any run from the initial state the recorded state and
timestamp are those of the last transition among the samples, so that
duration is measured from the immediately preceding transition. -/
theorem transition_recorded :
    (∀ (s : State) (ledOn : Bool) (now : Int), 0 ≤ s.morseIndex → s.morseIndex ≤ 15 →
      ledOn ≠ s.prevState →
      ∃ s1 tr, step s ledOn now = some (s1, tr) ∧
        s1.prevState = ledOn ∧ s1.lastTransitionTime = now ∧
        step s ledOn now =
          Option.map (fun p => ({ p.1 with prevState := ledOn }, p.2))
            (if s.prevState = true then
              fallingEdge { s with lastTransitionTime := now }
                (wrapInt64 (now - s.lastTransitionTime))
             else
              risingEdge { s with lastTransitionTime := now }
                (wrapInt64 (now - s.lastTransitionTime))) ∧
        (isInt64 (now - s.lastTransitionTime) →
          wrapInt64 (now - s.lastTransitionTime) = now - s.lastTransitionTime)) ∧
    (∀ samples, ∃ s tr, run init samples = some (s, tr) ∧
      (s.prevState, s.lastTransitionTime) =
        edges init.prevState init.lastTransitionTime samples) := by
  refine ⟨?_, ?_⟩
  · intro s ledOn now h0 h15 hne
    obtain ⟨s1, tr, hstep, _⟩ := step_buffered s ledOn now h0 h15
    obtain ⟨_, hrec, _⟩ := step_frame hstep
    obtain ⟨h1, h2⟩ := hrec hne
    refine ⟨s1, tr, hstep, h1, h2, ?_, fun h => wrapInt64_of_isInt64 h⟩
    have hb : (ledOn != s.prevState) = true := by simpa using hne
    simp only [step, hb, if_true]
    cases (if s.prevState = true then
        fallingEdge { s with lastTransitionTime := now }
          (wrapInt64 (now - s.lastTransitionTime))
      else
        risingEdge { s with lastTransitionTime := now }
          (wrapInt64 (now - s.lastTransitionTime))) with
    | none => rfl
    | some p => rfl
  · intro samples
    obtain ⟨s, tr, hrun, _⟩ := run_reachable samples init Reachable.init
    exact ⟨s, tr, hrun, run_edges samples init s tr hrun⟩

theorem transition_recorded_witness :
    ∃ s1 tr, step { holding (List.replicate 15 '.') 0 with prevState := true } false 5000
        = some (s1, tr) ∧ s1.prevState = false ∧ s1.lastTransitionTime = 5000 := by
  obtain ⟨s1, tr, h1, h2, h3, _⟩ :=
    transition_recorded.1 { holding (List.replicate 15 '.') 0 with prevState := true }
      false 5000 (by decide) (by decide) (by decide)
  exact ⟨s1, tr, h1, h2, h3⟩

theorem processed_chain (samples : List (Bool × Int)) :
    ∀ (s : State), 0 ≤ s.morseIndex → s.morseIndex ≤ 15 →
      ∃ l, processed s samples = some l ∧
        List.Chain (fun a b : Bool => a ≠ b) s.prevState (l.map Prod.fst) := by
  induction samples with
  | nil => intro s _ _; exact ⟨[], rfl, List.Chain.nil⟩
  | cons x rest ih =>
    intro s h0 h15
    obtain ⟨ledOn, now⟩ := x
    obtain ⟨s1, tr1, hs1, h01, h151, _⟩ := step_buffered s ledOn now h0 h15
    obtain ⟨l1, hl1, hch⟩ := ih s1 h01 h151
    obtain ⟨hst, hne, _⟩ := step_frame hs1
    by_cases hedge : ledOn = s.prevState
    · obtain ⟨rfl, _⟩ := hst hedge
      have hb : (ledOn != s1.prevState) = false := by simp [hedge]
      exact ⟨l1, by simp [processed, hs1, hl1, hb], hch⟩
    · obtain ⟨h1, _⟩ := hne hedge
      have hb : (ledOn != s.prevState) = true := by simpa using hedge
      refine ⟨(ledOn, now) :: l1, by simp [processed, hs1, hl1, hb], ?_⟩
      rw [h1] at hch
      exact List.Chain.cons (fun h => hedge h.symm) hch

/-- C16: over every list of samples from the initial state the loop is
defined, and the transitions it processes alternate direction: each differs
from the one before, and the first differs from the initial recorded state
`prevState = false`, so it is a rising edge. -/
theorem transitions_alternate (samples : List (Bool × Int)) :
    init.prevState = false ∧
    ∃ l, processed init samples = some l ∧
      List.Chain (fun a b : Bool => a ≠ b) false (l.map Prod.fst) ∧
      List.Chain' (fun a b : Bool × Int => a.1 ≠ b.1) l ∧
      (∀ x, l.head? = some x → x.1 = true) := by
  obtain ⟨l, hl, hch⟩ := processed_chain samples init (by decide) (by decide)
  have hch0 : List.Chain (fun a b : Bool => a ≠ b) false (l.map Prod.fst) := hch
  refine ⟨rfl, l, hl, hch0, ?_, ?_⟩
  · have h0 : List.Chain' (fun a b : Bool => a ≠ b) (false :: l.map Prod.fst) := hch0
    have h1 : List.Chain' (fun a b : Bool => a ≠ b) (l.map Prod.fst) := h0.tail
    exact (List.chain'_map Prod.fst).1 h1
  · intro x hx
    cases l with
    | nil => simp at hx
    | cons y ys =>
      simp only [List.head?_cons, Option.some.injEq] at hx
      subst hx
      simp only [List.map_cons, List.chain_cons] at hch0
      have := hch0.1
      cases hy : y.1 with
      | true => rfl
      | false => rw [hy] at this; exact absurd rfl this

theorem transitions_alternate_witness :
    ∃ l, processed init ([(false, 5000), (true, 10000), (true, 20000)] ++ letterARest)
        = some l ∧
      List.Chain' (fun a b : Bool × Int => a.1 ≠ b.1) l ∧
      l.map Prod.fst = [true, false, true, false] := by
  obtain ⟨_, l, h1, _, h3, _⟩ :=
    transitions_alternate ([(false, 5000), (true, 10000), (true, 20000)] ++ letterARest)
  refine ⟨l, h1, h3, ?_⟩
  have : processed init ([(false, 5000), (true, 10000), (true, 20000)] ++ letterARest)
      = some [(true, 10000), (false, 25000), (true, 40000), (false, 100000)] := by decide
  rw [this] at h1
  simp only [Option.some.injEq] at h1
  rw [← h1]; rfl

end MorseReader
